import Mathlib

set_option maxHeartbeats 2000000
set_option maxRecDepth 8000

/-! # Verification of the nona path tessellation engine (nokola/nonaquad)

Shallow embedding of src/nona/src/math.rs, color.rs, context.rs and cache.rs.

f32 values are modelled by exact rationals.  The transcendental f32
operations (sqrt, acos, sin, cos, atan2) and the f32 constant PI have no
exact rational counterpart, so every definition that needs one takes an
oracle argument (FOracle); concrete evaluations instantiate the oracle with
explicit rational-valued functions.  Raw pointer walking over the shared
vertex arena of the source is modelled by per-path vertex lists (the
ptrdistance counts of the source become list lengths), and in-place slice
mutation by functional slice replacement. -/

/-- 2D point, struct Point of math.rs (x, y are f32 in the source). -/
structure Pt where
  x : ℚ
  y : ℚ
deriving DecidableEq, Repr, Inhabited

/-- Point::equals of math.rs: squared distance strictly below tol*tol. -/
def ptEqualsB (self pt : Pt) (tol : ℚ) : Bool :=
  decide ((pt.x - self.x) * (pt.x - self.x) + (pt.y - self.y) * (pt.y - self.y) < tol * tol)

/-- Oracle for the transcendental f32 operations and the f32 constant PI:
sq models f32::sqrt, acos models f32::acos, and so on.  Definitions
translated from the source are parametric in the oracle; the claims proved
below hold for every oracle unless they evaluate a concrete scenario. -/
structure FOracle where
  sq : ℚ → ℚ
  acos : ℚ → ℚ
  sin : ℚ → ℚ
  cos : ℚ → ℚ
  atan2 : ℚ → ℚ → ℚ
  pi : ℚ

/-- Point::normalize of math.rs: returns the (possibly) rescaled point and
the computed length d; the point is rescaled by 1/d only when d > 1e-6. -/
def normalizeQ (o : FOracle) (p : Pt) : Pt × ℚ :=
  let d := o.sq (p.x * p.x + p.y * p.y)
  if 1/1000000 < d then (⟨p.x * (1/d), p.y * (1/d)⟩, d) else (p, d)

/-- struct Extent of math.rs. -/
structure ExtentQ where
  width : ℚ
  height : ℚ
deriving DecidableEq, Repr, Inhabited

/-- struct Rect of math.rs. -/
structure RectQ where
  xy : Pt
  size : ExtentQ
deriving DecidableEq, Repr, Inhabited

/-- Rect::intersect of math.rs, translated verbatim: note that in the source
BOTH destructuring lets read `rect` (the argument), so the receiver `self`
never contributes to the result. -/
def rectIntersect (_self rect : RectQ) : RectQ :=
  let ax := rect.xy.x
  let ay := rect.xy.y
  let aw := rect.size.width
  let ah := rect.size.height
  let bx := rect.xy.x
  let by0 := rect.xy.y
  let bw := rect.size.width
  let bh := rect.size.height
  let minx := max ax bx
  let miny := max ay by0
  let maxx := min (ax + aw) (bx + bw)
  let maxy := min (ay + ah) (by0 + bh)
  ⟨⟨minx, miny⟩, ⟨max (maxx - minx) 0, max (maxy - miny) 0⟩⟩

/-- struct Transform of math.rs: the 6-entry affine matrix, field k here is
entry t[k-th] of the source array in the order a=t0, b=t1, c=t2, d=t3,
e=t4, f=t5. -/
structure TransformQ where
  a : ℚ
  b : ℚ
  c : ℚ
  d : ℚ
  e : ℚ
  f : ℚ
deriving DecidableEq, Repr, Inhabited

/-- Transform::identity of math.rs. -/
def identityT : TransformQ := ⟨1, 0, 0, 1, 0, 0⟩

/-- The derived Default of Transform in the source: the all-zero matrix. -/
def zeroT : TransformQ := ⟨0, 0, 0, 0, 0, 0⟩

/-- impl Mul for Transform of math.rs (t * s). -/
def transMul (t s : TransformQ) : TransformQ :=
  { a := t.a * s.a + t.b * s.c
    b := t.a * s.b + t.b * s.d
    c := t.c * s.a + t.d * s.c
    d := t.c * s.b + t.d * s.d
    e := t.e * s.a + t.f * s.c + s.e
    f := t.e * s.b + t.f * s.d + s.f }

/-- Transform::inverse of math.rs; near-zero determinant yields identity. -/
def transInverse (t : TransformQ) : TransformQ :=
  let det := t.a * t.d - t.c * t.b
  if -1/1000000 < det ∧ det < 1/1000000 then identityT
  else
    let invdet := 1 / det
    { a := t.d * invdet
      c := -t.c * invdet
      e := (t.c * t.f - t.d * t.e) * invdet
      b := -t.b * invdet
      d := t.a * invdet
      f := (t.b * t.e - t.a * t.f) * invdet }

/-- Transform::transform_point of math.rs. -/
def transformPt (t : TransformQ) (p : Pt) : Pt :=
  ⟨p.x * t.a + p.y * t.c + t.e, p.x * t.b + p.y * t.d + t.f⟩

/-- struct Color of color.rs. -/
structure ColorQ where
  r : ℚ
  g : ℚ
  b : ℚ
  a : ℚ
deriving DecidableEq, Repr, Inhabited

/-- Color::rgb of color.rs. -/
def colorRgb (r g b : ℚ) : ColorQ := ⟨r, g, b, 1⟩

/-- struct Scissor of renderer.rs. -/
structure ScissorQ where
  xform : TransformQ
  extent : ExtentQ
deriving DecidableEq, Repr, Inhabited

/-- enum BlendFactor of context.rs. -/
inductive BlendFactor where
  | Zero | One | SrcColor | OneMinusSrcColor | DstColor | OneMinusDstColor
  | SrcAlpha | OneMinusSrcAlpha | DstAlpha | OneMinusDstAlpha | SrcAlphaSaturate
deriving DecidableEq, Repr, Inhabited

/-- struct CompositeOperationState of context.rs. -/
structure CompositeOperationState where
  srcRgb : BlendFactor
  dstRgb : BlendFactor
  srcAlpha : BlendFactor
  dstAlpha : BlendFactor
deriving DecidableEq, Repr, Inhabited

/-- CompositeOperation::Basic(SrcOver).into(): src factor One, dst factor
OneMinusSrcAlpha, per the Into impl in context.rs. -/
def srcOverState : CompositeOperationState :=
  ⟨.One, .OneMinusSrcAlpha, .One, .OneMinusSrcAlpha⟩

/-- enum Solidity of context.rs. -/
inductive Solidity where
  | Solid
  | Hole
deriving DecidableEq, Repr, Inhabited

/-- enum LineJoin of context.rs. -/
inductive LineJoin where
  | Miter
  | Round
  | Bevel
deriving DecidableEq, Repr, Inhabited

/-- enum LineCap of context.rs. -/
inductive LineCap where
  | Butt
  | Round
  | Square
deriving DecidableEq, Repr, Inhabited

/-- bitflags Align of context.rs, as one Bool per flag bit. -/
structure AlignQ where
  left : Bool
  center : Bool
  right : Bool
  top : Bool
  middle : Bool
  bottom : Bool
  baseline : Bool
deriving DecidableEq, Repr, Inhabited

/-- struct Paint of context.rs (image handle as an optional id). -/
structure PaintQ where
  xform : TransformQ
  extent : ExtentQ
  radius : ℚ
  feather : ℚ
  innerColor : ColorQ
  outerColor : ColorQ
  image : Option ℕ
deriving DecidableEq, Repr, Inhabited

/-- impl From for Paint of a color in context.rs: identity transform, zero
extent, zero radius, feather 1, both colors the given color, no image. -/
def colorPaint (c : ColorQ) : PaintQ :=
  ⟨identityT, ⟨0, 0⟩, 0, 1, c, c, none⟩

/-- struct State of context.rs: one entry of the drawing-state stack. -/
structure DrawState where
  compositeOperation : CompositeOperationState
  shapeAntialias : Bool
  fill : PaintQ
  stroke : PaintQ
  strokeWidth : ℚ
  miterLimit : ℚ
  lineJoin : LineJoin
  lineCap : LineCap
  alpha : ℚ
  xform : TransformQ
  scissor : ScissorQ
  fontSize : ℚ
  letterSpacing : ℚ
  lineHeight : ℚ
  textAlign : AlignQ
  fontId : ℕ
deriving DecidableEq, Repr

/-- impl Default for State of context.rs. -/
def defaultDrawState : DrawState :=
  { compositeOperation := srcOverState
    shapeAntialias := true
    fill := colorPaint (colorRgb 1 1 1)
    stroke := colorPaint (colorRgb 0 0 0)
    strokeWidth := 1
    miterLimit := 10
    lineJoin := .Miter
    lineCap := .Butt
    alpha := 1
    xform := identityT
    scissor := ⟨zeroT, ⟨-1, -1⟩⟩
    fontSize := 16
    letterSpacing := 0
    lineHeight := 1
    textAlign := ⟨true, false, false, false, false, false, true⟩
    fontId := 0 }

instance : Inhabited DrawState := ⟨defaultDrawState⟩

/-- Context::save of context.rs: push a copy of the top state (the last
entry of the Vec); no-op on an empty stack, mirroring the if-let. -/
def stackSave (l : List DrawState) : List DrawState :=
  match l.getLast? with
  | none => l
  | some s => l ++ [s]

/-- Context::restore of context.rs: pop, silently ignored at depth <= 1. -/
def stackRestore (l : List DrawState) : List DrawState :=
  if l.length ≤ 1 then l else l.dropLast

/-- A mutation of the top state alone (what Context::state_mut hands out to
operations such as fill_paint): replace the last entry by f of it. -/
def applyTop (f : DrawState → DrawState) (l : List DrawState) : List DrawState :=
  match l.getLast? with
  | none => l
  | some s => l.dropLast ++ [f s]

/-- A sequence of top-state mutations, applied in order. -/
def applyOps (fs : List (DrawState → DrawState)) (l : List DrawState) : List DrawState :=
  fs.foldl (fun acc f => applyTop f acc) l

/-- Context::fill_paint of context.rs: the paint's transform is
post-multiplied by the current state transform, then stored as the fill. -/
def fillPaintSet (paint : PaintQ) (s : DrawState) : DrawState :=
  { s with fill := { paint with xform := transMul paint.xform s.xform } }

/-- Context::scissor of context.rs: clamp the rect size at 0, build the
translation transform to the rect center, compose with the state transform
and store the half-size extent. -/
def scissorSet (s : DrawState) (r : RectQ) : DrawState :=
  let x := r.xy.x
  let y := r.xy.y
  let w := max r.size.width 0
  let h := max r.size.height 0
  let sx : TransformQ := { identityT with e := x + w * (1/2), f := y + h * (1/2) }
  { s with scissor := { xform := transMul sx s.xform, extent := ⟨w * (1/2), h * (1/2)⟩ } }

/-- Context::intersect_scissor of context.rs. -/
def intersectScissor (s : DrawState) (r : RectQ) : DrawState :=
  if s.scissor.extent.width < 0 then scissorSet s r
  else
    let ex := s.scissor.extent.width
    let ey := s.scissor.extent.height
    let invxorm := transInverse s.xform
    let px := transMul s.scissor.xform invxorm
    let tex := ex * |px.a| + ey * |px.c|
    let tey := ex * |px.b| + ey * |px.d|
    scissorSet s (rectIntersect ⟨⟨px.e - tex, px.f - tey⟩, ⟨tex * 2, tey * 2⟩⟩ r)

theorem rectIntersect_eq_clamp (a b : RectQ) :
    rectIntersect a b = ⟨b.xy, ⟨max b.size.width 0, max b.size.height 0⟩⟩ := by
  simp only [rectIntersect, max_self, min_self, add_sub_cancel_left]

theorem scissorSet_clamp (s : DrawState) (b : RectQ) :
    scissorSet s ⟨b.xy, ⟨max b.size.width 0, max b.size.height 0⟩⟩ = scissorSet s b := by
  simp only [scissorSet, max_assoc, max_self]

/-- C10: Rect::intersect ignores its receiver: a.intersect(b) is b with its
width and height clamped at 0, so the result never depends on a; as a
consequence intersect_scissor applies no clamping from the previous scissor
rectangle at all, agreeing with a plain Context::scissor call. -/
theorem claim_C10_intersect_ignores_receiver :
    (∀ a b : RectQ, rectIntersect a b = ⟨b.xy, ⟨max b.size.width 0, max b.size.height 0⟩⟩)
    ∧ (∀ a a' b : RectQ, rectIntersect a b = rectIntersect a' b)
    ∧ (∀ (s : DrawState) (r : RectQ), intersectScissor s r = scissorSet s r) := by
  refine ⟨rectIntersect_eq_clamp, fun a a' b => ?_, fun s r => ?_⟩
  · rw [rectIntersect_eq_clamp, rectIntersect_eq_clamp]
  · unfold intersectScissor
    split
    · rfl
    · simp only [rectIntersect_eq_clamp, scissorSet_clamp]

theorem applyOps_concat (fs : List (DrawState → DrawState)) :
    ∀ (l : List DrawState) (x : DrawState),
      applyOps fs (l ++ [x]) = l ++ [fs.foldl (fun a f => f a) x] := by
  induction fs with
  | nil => intro l x; rfl
  | cons f fs ih =>
      intro l x
      show applyOps fs (applyTop f (l ++ [x])) = _
      rw [show applyTop f (l ++ [x]) = l ++ [f x] by
        simp [applyTop, List.getLast?_concat, List.dropLast_concat]]
      rw [ih l (f x)]
      rfl

/-- C9: save; any sequence of top-state mutations; restore — restores the
whole stack (hence the pre-save top state, fill paint included, exactly),
and restore at stack depth 1 leaves the stack unchanged. -/
theorem claim_C9_save_restore :
    (∀ (s : List DrawState) (fs : List (DrawState → DrawState)),
        s ≠ [] → stackRestore (applyOps fs (stackSave s)) = s)
    ∧ (∀ st : DrawState, stackRestore [st] = [st]) := by
  constructor
  · intro s fs hs
    rcases (List.eq_nil_or_concat s).resolve_left hs with ⟨l, x, rfl⟩
    simp only [List.concat_eq_append]
    have hsave : stackSave (l ++ [x]) = (l ++ [x]) ++ [x] := by
      simp [stackSave, List.getLast?_concat]
    rw [hsave, applyOps_concat]
    unfold stackRestore
    rw [if_neg (by simp)]
    exact List.dropLast_concat
  · intro st
    rfl

/-- Witness for C9 at a concrete stack and a concrete fill_paint(red)
mutation. -/
theorem claim_C9_save_restore_witness :
    ([defaultDrawState] ≠ [] ∧
      stackRestore (applyOps [fillPaintSet (colorPaint (colorRgb 1 0 0))]
        (stackSave [defaultDrawState])) = [defaultDrawState])
    ∧ stackRestore [defaultDrawState] = [defaultDrawState] :=
  ⟨⟨by simp,
    claim_C9_save_restore.1 [defaultDrawState] [fillPaintSet (colorPaint (colorRgb 1 0 0))]
      (by simp)⟩,
   claim_C9_save_restore.2 defaultDrawState⟩

/-- struct Vertex of context.rs: position (x, y) and texcoord (u, v). -/
structure Vertex where
  x : ℚ
  y : ℚ
  u : ℚ
  v : ℚ
deriving DecidableEq, Repr, Inhabited

/-- bitflags PointFlags of cache.rs: PT_CORNER, PT_LEFT, PT_BEVEL,
PR_INNERBEVEL, one Bool per bit. -/
structure PFlags where
  corner : Bool
  left : Bool
  bevel : Bool
  innerBevel : Bool
deriving DecidableEq, Repr, Inhabited

/-- Bitwise or of two flag sets. -/
def PFlags.union (a b : PFlags) : PFlags :=
  ⟨a.corner || b.corner, a.left || b.left, a.bevel || b.bevel, a.innerBevel || b.innerBevel⟩

/-- PointFlags::PT_CORNER alone. -/
def cornerFlag : PFlags := ⟨true, false, false, false⟩

/-- PointFlags::empty(). -/
def noFlags : PFlags := ⟨false, false, false, false⟩

/-- struct VPoint of cache.rs: position, direction to the next point, segment
length, averaged miter direction and the point flags. -/
structure VPoint where
  xy : Pt
  d : Pt
  len : ℚ
  dm : Pt
  flags : PFlags
deriving DecidableEq, Repr, Inhabited

/-- struct Bounds of math.rs. -/
structure BoundsQ where
  bmin : Pt
  bmax : Pt
deriving DecidableEq, Repr, Inhabited

/-- struct Path of context.rs, one subpath record: first/count index into
the point buffer plus the expanded vertex output.  The raw fill/stroke
pointers with their num_fill/num_stroke counts are modelled as the lists of
vertices written for this path (a count is the list's length). -/
structure PathRec where
  first : ℕ
  count : ℕ
  closed : Bool
  numBevel : ℕ
  solidity : Solidity
  fill : List Vertex
  stroke : List Vertex
  convex : Bool
deriving DecidableEq, Repr, Inhabited

/-- struct PathCache of cache.rs (the shared vertex arena lives inside each
PathRec here, see PathRec). -/
structure CacheState where
  points : List VPoint
  paths : List PathRec
  bounds : BoundsQ
deriving DecidableEq, Repr, Inhabited

/-- A cleared cache (PathCache::clear). -/
def emptyCache : CacheState := ⟨[], [], ⟨⟨0, 0⟩, ⟨0, 0⟩⟩⟩

/-- PathCache::add_path of cache.rs. -/
def addPath (st : CacheState) : CacheState :=
  { st with
      paths := st.paths ++
        [{ first := st.points.length, count := 0, closed := false, numBevel := 0,
           solidity := .Solid, fill := [], stroke := [], convex := false }] }

/-- PathCache::add_point of cache.rs: with a current path present, a new
point within dist_tol of the last stored point (and a positive current
count) is merged into it by flag union, otherwise the point is appended and
the current path's count grows. -/
def addPoint (st : CacheState) (pt : Pt) (flags : PFlags) (distTol : ℚ) : CacheState :=
  match st.paths.getLast? with
  | none => st
  | some path =>
    match st.points.getLast? with
    | some lastPt =>
      if 0 < path.count ∧ ptEqualsB lastPt.xy pt distTol = true then
        { st with points := st.points.dropLast ++ [{ lastPt with flags := lastPt.flags.union flags }] }
      else
        { st with
            points := st.points ++ [⟨pt, ⟨0, 0⟩, 0, ⟨0, 0⟩, flags⟩]
            paths := st.paths.dropLast ++ [{ path with count := path.count + 1 }] }
    | none =>
      { st with
          points := st.points ++ [⟨pt, ⟨0, 0⟩, 0, ⟨0, 0⟩, flags⟩]
          paths := st.paths.dropLast ++ [{ path with count := path.count + 1 }] }

/-- PathCache::close_path of cache.rs. -/
def closeLastPath (st : CacheState) : CacheState :=
  match st.paths.getLast? with
  | none => st
  | some path => { st with paths := st.paths.dropLast ++ [{ path with closed := true }] }

/-- PathCache::path_solidity of cache.rs. -/
def setSolidity (st : CacheState) (s : Solidity) : CacheState :=
  match st.paths.getLast? with
  | none => st
  | some path => { st with paths := st.paths.dropLast ++ [{ path with solidity := s }] }

/-- PathCache::tesselate_bezier of cache.rs, with the recursion depth carried
as structural fuel: the source returns once level > 10 and recurses at
level + 1, which is fuel = 11 - level here.  Note the source passes tess_tol
as the dist_tol argument of add_point. -/
def tessB : ℕ → CacheState → Pt → Pt → Pt → Pt → PFlags → ℚ → CacheState
  | 0, st, _, _, _, _, _, _ => st
  | fuel + 1, st, p1, p2, p3, p4, flags, tessTol =>
    let x12 := (p1.x + p2.x) * (1/2)
    let y12 := (p1.y + p2.y) * (1/2)
    let x23 := (p2.x + p3.x) * (1/2)
    let y23 := (p2.y + p3.y) * (1/2)
    let x34 := (p3.x + p4.x) * (1/2)
    let y34 := (p3.y + p4.y) * (1/2)
    let x123 := (x12 + x23) * (1/2)
    let y123 := (y12 + y23) * (1/2)
    let dx := p4.x - p1.x
    let dy := p4.y - p1.y
    let d2 := |(p2.x - p4.x) * dy - (p2.y - p4.y) * dx|
    let d3 := |(p3.x - p4.x) * dy - (p3.y - p4.y) * dx|
    if (d2 + d3) * (d2 + d3) < tessTol * (dx * dx + dy * dy) then
      addPoint st p4 flags tessTol
    else
      let x234 := (x23 + x34) * (1/2)
      let y234 := (y23 + y34) * (1/2)
      let x1234 := (x123 + x234) * (1/2)
      let y1234 := (y123 + y234) * (1/2)
      let st1 := tessB fuel st p1 ⟨x12, y12⟩ ⟨x123, y123⟩ ⟨x1234, y1234⟩ noFlags tessTol
      tessB fuel st1 ⟨x1234, y1234⟩ ⟨x234, y234⟩ ⟨x34, y34⟩ p4 flags tessTol

/-- tesselate_bezier at a given starting level. -/
def tesselateBezier (st : CacheState) (p1 p2 p3 p4 : Pt) (level : ℕ) (flags : PFlags)
    (tessTol : ℚ) : CacheState :=
  tessB (11 - level) st p1 p2 p3 p4 flags tessTol

/-- enum Command of context.rs. -/
inductive Cmd where
  | moveTo (p : Pt)
  | lineTo (p : Pt)
  | bezierTo (c1 c2 p : Pt)
  | close
  | solidity (s : Solidity)
deriving DecidableEq, Repr, Inhabited

/-- One step of the command loop of PathCache::flatten_paths in cache.rs.
BezierTo starts from the last stored point and is skipped when there is
none; it is tessellated at level 0 with corner flags. -/
def flattenCmd (distTol tessTol : ℚ) (st : CacheState) : Cmd → CacheState
  | .moveTo p => addPoint (addPath st) p cornerFlag distTol
  | .lineTo p => addPoint st p cornerFlag distTol
  | .bezierTo c1 c2 p =>
    match st.points.getLast? with
    | some lastP => tesselateBezier st lastP.xy c1 c2 p 0 cornerFlag tessTol
    | none => st
  | .close => closeLastPath st
  | .solidity s => setSolidity st s

/-- The command loop of flatten_paths (everything before the per-path fixup). -/
def flattenStep1 (distTol tessTol : ℚ) (cmds : List Cmd) (st : CacheState) : CacheState :=
  cmds.foldl (flattenCmd distTol tessTol) st

/-- Context::rect of context.rs composed with append_command: the four
corners transformed by the current state transform, then Close. -/
def rectCmds (t : TransformQ) (r : RectQ) : List Cmd :=
  [ .moveTo (transformPt t ⟨r.xy.x, r.xy.y⟩)
  , .lineTo (transformPt t ⟨r.xy.x, r.xy.y + r.size.height⟩)
  , .lineTo (transformPt t ⟨r.xy.x + r.size.width, r.xy.y + r.size.height⟩)
  , .lineTo (transformPt t ⟨r.xy.x + r.size.width, r.xy.y⟩)
  , .close ]

/-- triangle_area of cache.rs (the source reads the xy field of each VPoint;
here the function takes the positions themselves). -/
def triArea (a b c : Pt) : ℚ :=
  let abx := b.x - a.x
  let aby := b.y - a.y
  let acx := c.x - a.x
  let acy := c.y - a.y
  acx * aby - abx * acy

/-- The fan sum of poly_area of cache.rs: triangles (pts 0, pts i-1, pts i)
for i = 2 .. len-1, written as a recursion on the tail. -/
def fanSum (a : Pt) : Pt → List Pt → ℚ
  | _, [] => 0
  | b, c :: rest => triArea a b c + fanSum a c rest

/-- poly_area of cache.rs: the fan sum halved (0 for fewer than 3 points). -/
def polyArea (l : List Pt) : ℚ :=
  (match l with
   | p0 :: p1 :: rest => fanSum p0 p1 rest
   | _ => 0) * (1/2)

/-- 2D cross product helper for the shoelace formulation of poly_area. -/
def crossQ (u v : Pt) : ℚ := u.x * v.y - u.y * v.x

/-- Sum of cross products of adjacent pairs along a list. -/
def chainQ : List Pt → ℚ
  | [] => 0
  | [_] => 0
  | a :: b :: l => crossQ a b + chainQ (b :: l)

/-- The cyclic shoelace sum: the chain plus the closing edge. -/
def shoelaceQ : List Pt → ℚ
  | [] => 0
  | a :: t => chainQ (a :: t) + crossQ (t.getLastD a) a

theorem crossQ_self (a : Pt) : crossQ a a = 0 := by
  unfold crossQ; ring

theorem crossQ_antisym (a b : Pt) : crossQ a b = -crossQ b a := by
  unfold crossQ; ring

theorem triArea_cross (a b c : Pt) : triArea a b c = crossQ a c - crossQ a b - crossQ b c := by
  unfold triArea crossQ; ring

theorem chainQ_concat (x : Pt) :
    ∀ l : List Pt, chainQ (l ++ [x]) = chainQ l + crossQ (l.getLastD x) x := by
  intro l
  induction l with
  | nil => simp [chainQ, crossQ_self]
  | cons h t ih =>
      cases t with
      | nil => simp [chainQ]
      | cons c m =>
        have h1 : chainQ (h :: c :: m ++ [x]) = crossQ h c + chainQ ((c :: m) ++ [x]) := rfl
        have h2 : chainQ (h :: c :: m) = crossQ h c + chainQ (c :: m) := rfl
        simp only [List.cons_append] at h1 ih ⊢
        rw [h1, ih, h2]
        simp only [List.getLastD_cons]
        ring

theorem chainQ_reverse : ∀ l : List Pt, chainQ l.reverse = -chainQ l := by
  intro l
  induction l with
  | nil => simp [chainQ]
  | cons a t ih =>
      rw [List.reverse_cons, chainQ_concat]
      cases t with
      | nil => simp [chainQ, crossQ_self]
      | cons c m =>
        have hLast : ((c :: m).reverse).getLastD a = c := by
          rw [List.getLastD_eq_getLast?, List.getLast?_reverse]
          rfl
        rw [ih, hLast]
        have h2 : chainQ (a :: c :: m) = crossQ a c + chainQ (c :: m) := rfl
        rw [h2, crossQ_antisym c a]
        ring

theorem fanSum_shoelace (a : Pt) :
    ∀ (rest : List Pt) (b : Pt),
      fanSum a b rest = -(crossQ a b + chainQ (b :: rest) + crossQ (rest.getLastD b) a) := by
  intro rest
  induction rest with
  | nil =>
      intro b
      simp [fanSum, chainQ, List.getLastD, crossQ_antisym a b]
  | cons c t ih =>
      intro b
      have h1 : fanSum a b (c :: t) = triArea a b c + fanSum a c t := rfl
      have h2 : chainQ (b :: c :: t) = crossQ b c + chainQ (c :: t) := rfl
      rw [h1, ih c, h2, List.getLastD_cons, triArea_cross]
      ring

theorem polyArea_shoelace (l : List Pt) : polyArea l = -(shoelaceQ l) * (1/2) := by
  match l with
  | [] => rfl
  | [a] =>
      show (0 : ℚ) * (1/2) = -(chainQ [a] + crossQ (List.getLastD [] a) a) * (1/2)
      simp [chainQ, List.getLastD, crossQ_self]
  | a :: b :: rest =>
      have h3 : shoelaceQ (a :: b :: rest)
          = crossQ a b + chainQ (b :: rest) + crossQ (rest.getLastD b) a := by
        show chainQ (a :: b :: rest) + crossQ ((b :: rest).getLastD a) a = _
        rw [List.getLastD_cons]
        exact rfl
      show fanSum a b rest * (1/2) = -(shoelaceQ (a :: b :: rest)) * (1/2)
      rw [fanSum_shoelace a rest b, h3]

theorem shoelaceQ_rotate (a : Pt) :
    ∀ l : List Pt, shoelaceQ (l ++ [a]) = shoelaceQ (a :: l) := by
  intro l
  cases l with
  | nil => rfl
  | cons b s =>
      show chainQ (b :: (s ++ [a])) + crossQ ((s ++ [a]).getLastD b) b = _
      have h1 : chainQ ((b :: s) ++ [a]) = chainQ (b :: s) + crossQ ((b :: s).getLastD a) a :=
        chainQ_concat a (b :: s)
      simp only [List.cons_append] at h1
      rw [h1, List.getLastD_concat, List.getLastD_cons]
      show _ = chainQ (a :: b :: s) + crossQ ((b :: s).getLastD a) a
      have h2 : chainQ (a :: b :: s) = crossQ a b + chainQ (b :: s) := rfl
      rw [h2, List.getLastD_cons]
      ring

theorem shoelaceQ_reverse : ∀ l : List Pt, shoelaceQ l.reverse = -shoelaceQ l := by
  intro l
  cases l with
  | nil => rfl
  | cons a t =>
      rw [List.reverse_cons, shoelaceQ_rotate]
      cases t with
      | nil => simp [shoelaceQ, chainQ, List.getLastD, crossQ_self]
      | cons c m =>
        show chainQ (a :: (c :: m).reverse) + crossQ (((c :: m).reverse).getLastD a) a = _
        have hLast : ((c :: m).reverse).getLastD a = c := by
          rw [List.getLastD_eq_getLast?, List.getLast?_reverse]
          rfl
        have hchain : chainQ (a :: (c :: m).reverse) = -chainQ ((c :: m) ++ [a]) := by
          have : ((c :: m) ++ [a]).reverse = a :: (c :: m).reverse := by
            rw [List.reverse_append]
            rfl
          rw [← this, chainQ_reverse]
        rw [hchain, chainQ_concat, hLast]
        show _ = -(chainQ (a :: c :: m) + crossQ ((c :: m).getLastD a) a)
        have h2 : chainQ (a :: c :: m) = crossQ a c + chainQ (c :: m) := rfl
        rw [h2, crossQ_antisym c a]
        ring

theorem polyArea_reverse (l : List Pt) : polyArea l.reverse = -polyArea l := by
  rw [polyArea_shoelace, polyArea_shoelace, shoelaceQ_reverse]
  ring

/-- The previous point of each entry of a path's point slice, wrapping: the
p0 cursor of the source loops starts at the slice's last point and then
trails p1 by one. -/
def prevList (l : List VPoint) : List VPoint :=
  match l with
  | [] => []
  | p :: t => (t.getLastD p) :: (p :: t).dropLast

/-- The direction pass at the end of flatten_paths: every point's d becomes
the normalized vector to the (cyclically) next point and len that vector's
length, via Point::normalize. -/
def setDirs (o : FOracle) : List VPoint → List VPoint
  | [] => []
  | p :: t =>
    ((p :: t).zip (t ++ [p])).map (fun pr =>
      let n := normalizeQ o ⟨pr.2.xy.x - pr.1.xy.x, pr.2.xy.y - pr.1.xy.y⟩
      { pr.1 with d := n.1, len := n.2 })

/-- The per-path fixup of flatten_paths on one path's point slice: drop a
last point that duplicates the first (forcing closed), fix the winding by
solidity using poly_area / poly_reverse, then run the direction pass.
Returns the new slice and the updated path record. -/
def flattenFixSlice (o : FOracle) (distTol : ℚ) (slice : List VPoint) (p : PathRec) :
    List VPoint × PathRec :=
  let dedupB : Bool :=
    match slice.getLast?, slice.head? with
    | some lastP, some firstP => ptEqualsB lastP.xy firstP.xy distTol
    | _, _ => false
  let count1 := if dedupB then p.count - 1 else p.count
  let closed1 := if dedupB then true else p.closed
  let slice1 := slice.take count1
  let slice2 :=
    if 2 < count1 then
      let area := polyArea (slice1.map VPoint.xy)
      let sliceA := if p.solidity = .Solid ∧ area < 0 then slice1.reverse else slice1
      if p.solidity = .Hole ∧ 0 < area then sliceA.reverse else sliceA
    else slice1
  (setDirs o slice2, { p with count := count1, closed := closed1 })

/-- The per-path loops of flatten_paths and calculate_joins, generically: for
each path in order, extract its point slice, process it with g, and splice
the result back over the region the new slice occupies. -/
def pathFold (g : List VPoint → PathRec → List VPoint × PathRec) :
    List VPoint → List PathRec → List VPoint × List PathRec
  | pts, [] => (pts, [])
  | pts, p :: rest =>
    let pr := g ((pts.drop p.first).take p.count) p
    let pts1 := pts.take p.first ++ pr.1 ++ pts.drop (p.first + pr.1.length)
    let acc := pathFold g pts1 rest
    (acc.1, pr.2 :: acc.2)

/-- One min/max accumulation step of the bounds loop of flatten_paths. -/
def boundsAddPt (b : BoundsQ) (q : Pt) : BoundsQ :=
  ⟨⟨min b.bmin.x q.x, min b.bmin.y q.y⟩, ⟨max b.bmax.x q.x, max b.bmax.y q.y⟩⟩

/-- f32::MAX as an exact rational. -/
def f32Max : ℚ := 2 ^ 128 - 2 ^ 104

/-- The bounding box accumulated over every path's final point slice,
starting from (f32::MAX, f32::MIN), as flatten_paths does. -/
def cacheBounds (pts : List VPoint) (paths : List PathRec) : BoundsQ :=
  paths.foldl (fun b p =>
      (((pts.drop p.first).take p.count).map VPoint.xy).foldl boundsAddPt b)
    ⟨⟨f32Max, f32Max⟩, ⟨-f32Max, -f32Max⟩⟩

/-- The per-path half of flatten_paths (everything after the command loop). -/
def flattenFinish (o : FOracle) (distTol : ℚ) (st : CacheState) : CacheState :=
  let pp := pathFold (flattenFixSlice o distTol) st.points st.paths
  ⟨pp.1, pp.2, cacheBounds pp.1 pp.2⟩

/-- PathCache::flatten_paths of cache.rs on a cleared cache. -/
def flattenPaths (o : FOracle) (cmds : List Cmd) (distTol tessTol : ℚ) : CacheState :=
  flattenFinish o distTol (flattenStep1 distTol tessTol cmds emptyCache)

/-- The squared norm of the unscaled averaged miter direction of a join, as
calculate_joins computes it before the 1/dmr2 rescale. -/
def dmr2V (p0 p1 : VPoint) : ℚ :=
  let dmx := (p0.d.y + p1.d.y) * (1/2)
  let dmy := (-p0.d.x + -p1.d.x) * (1/2)
  dmx * dmx + dmy * dmy

/-- The 2D cross product of the incoming and outgoing directions at a join,
as calculate_joins computes it. -/
def crossV (p0 p1 : VPoint) : ℚ := p1.d.x * p0.d.y - p0.d.x * p1.d.y

/-- The per-point body of calculate_joins in cache.rs: rebuild dm and the
flags of p1 from the directions and lengths of p0 and p1. -/
def joinPoint (iw : ℚ) (lj : LineJoin) (miterLimit : ℚ) (p0 p1 : VPoint) : VPoint :=
  let dlx0 := p0.d.y
  let dly0 := -p0.d.x
  let dlx1 := p1.d.y
  let dly1 := -p1.d.x
  let dmx := (dlx0 + dlx1) * (1/2)
  let dmy := (dly0 + dly1) * (1/2)
  let dmr2 := dmx * dmx + dmy * dmy
  let dm : Pt :=
    if 1/1000000 < dmr2 then
      let scale := min (1 / dmr2) 600
      ⟨dmx * scale, dmy * scale⟩
    else ⟨dmx, dmy⟩
  let corner := p1.flags.corner
  let left := decide (0 < crossV p0 p1)
  let limit := max (min p0.len p1.len * iw) (101/100)
  let inner := decide (dmr2 * limit * limit < 1)
  let bevel :=
    corner && decide (dmr2 * miterLimit * miterLimit < 1 ∨ lj = .Bevel ∨ lj = .Round)
  { p1 with dm := dm, flags := ⟨corner, left, bevel, inner⟩ }

/-- The per-path body of calculate_joins: process each point against its
predecessor, count the left turns and the beveled points, and set the
convex flag when every point turned left (nleft == path.count). -/
def joinSliceG (iw : ℚ) (lj : LineJoin) (ml : ℚ) (slice : List VPoint) (p : PathRec) :
    List VPoint × PathRec :=
  let ns := ((prevList slice).zip slice).map (fun pr => joinPoint iw lj ml pr.1 pr.2)
  let nleft := ns.countP (fun q => q.flags.left)
  let nbev := ns.countP (fun q => q.flags.bevel || q.flags.innerBevel)
  (ns, { p with numBevel := nbev, convex := decide (nleft = p.count) })

/-- PathCache::calculate_joins of cache.rs: iw is 1/w for positive w, else 0. -/
def calculateJoins (st : CacheState) (w : ℚ) (lj : LineJoin) (ml : ℚ) : CacheState :=
  let iw := if 0 < w then 1 / w else 0
  let pp := pathFold (joinSliceG iw lj ml) st.points st.paths
  { st with points := pp.1, paths := pp.2 }

/-- A concrete oracle for the scenario evaluations: a rational table of the
square roots the scenarios reach (all exact but sqrt(10001), where any value
above 1e-6 only feeds a direction no claim reads), acos at the one argument
curve_divs reaches with r = 1 and tol = 1/4 (acos(4/5) is about 0.6435), and
a rational stand-in for PI. -/
def oracleQ : FOracle :=
  { sq := fun q =>
      if q = 1 then 1 else if q = 100 then 10
      else if q = 10000 then 100 else if q = 10001 then 100 else 0
    acos := fun q => if q = 4/5 then 161/250 else 1
    sin := fun _ => 1/2
    cos := fun _ => 1/2
    atan2 := fun _ _ => 0
    pi := 3141593/1000000 }

/-- Chained layout of path records over a point buffer of length n: each
path's slice begins at or after lo and the next path begins at or after its
end.  flatten's command loop always produces chained paths. -/
def pathsChainedB : List PathRec → ℕ → ℕ → Bool
  | [], lo, n => decide (lo ≤ n)
  | p :: rest, lo, n => decide (lo ≤ p.first) && pathsChainedB rest (p.first + p.count) n

theorem chained_le : ∀ (paths : List PathRec) (lo n : ℕ),
    pathsChainedB paths lo n = true → lo ≤ n := by
  intro paths
  induction paths with
  | nil => intro lo n h; simpa [pathsChainedB] using h
  | cons p rest ih =>
      intro lo n h
      simp only [pathsChainedB, Bool.and_eq_true, decide_eq_true_eq] at h
      have := ih (p.first + p.count) n h.2
      omega

theorem chained_first_ge : ∀ (paths : List PathRec) (lo n : ℕ),
    pathsChainedB paths lo n = true →
    ∀ j, j < paths.length → lo ≤ (paths.getD j default).first := by
  intro paths
  induction paths with
  | nil => intro lo n _ j hj; simp at hj
  | cons p rest ih =>
      intro lo n h j hj
      simp only [pathsChainedB, Bool.and_eq_true, decide_eq_true_eq] at h
      match j with
      | 0 => exact h.1
      | j + 1 =>
          have hj' : j < rest.length := by simpa using hj
          have := ih (p.first + p.count) n h.2 j hj'
          have hle : lo ≤ p.first + p.count := le_trans h.1 (Nat.le_add_right _ _)
          exact le_trans hle this

theorem splice_length (pts ns : List VPoint) (f : ℕ) (hf : f + ns.length ≤ pts.length) :
    (pts.take f ++ ns ++ pts.drop (f + ns.length)).length = pts.length := by
  simp only [List.length_append, List.length_take, List.length_drop]
  omega

theorem take_len_eq (pts : List VPoint) (f : ℕ) (hf : f ≤ pts.length) :
    (pts.take f).length = f := by
  simp only [List.length_take]
  omega

theorem splice_take (pts ns : List VPoint) (f : ℕ) (hf : f ≤ pts.length) :
    (pts.take f ++ ns ++ pts.drop (f + ns.length)).take f = pts.take f := by
  rw [List.append_assoc, List.take_left' (take_len_eq pts f hf)]

theorem splice_drop (pts ns : List VPoint) (f : ℕ) (hf : f ≤ pts.length) :
    (pts.take f ++ ns ++ pts.drop (f + ns.length)).drop (f + ns.length)
      = pts.drop (f + ns.length) := by
  have h1 : (pts.take f ++ ns).length = f + ns.length := by
    simp only [List.length_append, List.length_take]
    omega
  rw [List.drop_left' h1]

theorem splice_drop_ge (pts ns : List VPoint) (f a : ℕ) (hf : f ≤ pts.length)
    (ha : f + ns.length ≤ a) :
    (pts.take f ++ ns ++ pts.drop (f + ns.length)).drop a = pts.drop a := by
  have h3 : ((pts.take f ++ ns ++ pts.drop (f + ns.length)).drop (f + ns.length)).drop
      (a - (f + ns.length)) = (pts.take f ++ ns ++ pts.drop (f + ns.length)).drop a := by
    rw [List.drop_drop]
    congr 1
    omega
  have h4 : (pts.drop (f + ns.length)).drop (a - (f + ns.length)) = pts.drop a := by
    rw [List.drop_drop]
    congr 1
    omega
  rw [← h3, splice_drop pts ns f hf, h4]

theorem splice_mid (pts ns : List VPoint) (f : ℕ) (hf : f ≤ pts.length) :
    ((pts.take f ++ ns ++ pts.drop (f + ns.length)).drop f).take ns.length = ns := by
  rw [List.append_assoc, List.drop_left' (take_len_eq pts f hf), List.take_left]

/-- The slice-processing property every per-path body used with pathFold
satisfies: on a slice of the declared count it returns a slice whose length
is the returned record's count, no longer than the old count, and keeps the
record's first index. -/
def SliceBody (g : List VPoint → PathRec → List VPoint × PathRec) : Prop :=
  ∀ sl p, sl.length = p.count →
    (g sl p).1.length = (g sl p).2.count ∧ (g sl p).2.count ≤ p.count ∧
      (g sl p).2.first = p.first

theorem pathFold_points_len (g : List VPoint → PathRec → List VPoint × PathRec)
    (Hg : SliceBody g) :
    ∀ (paths : List PathRec) (pts : List VPoint) (lo : ℕ),
      pathsChainedB paths lo pts.length = true →
      (pathFold g pts paths).1.length = pts.length := by
  intro paths
  induction paths with
  | nil => intro pts lo _; rfl
  | cons p rest ih =>
      intro pts lo h
      simp only [pathsChainedB, Bool.and_eq_true, decide_eq_true_eq] at h
      obtain ⟨hlo, hrest⟩ := h
      have hfc : p.first + p.count ≤ pts.length := chained_le _ _ _ hrest
      have hsl : ((pts.drop p.first).take p.count).length = p.count := by
        simp only [List.length_take, List.length_drop]
        omega
      obtain ⟨hg1, hg2, _⟩ := Hg _ p hsl
      have hk : p.first + (g ((pts.drop p.first).take p.count) p).1.length ≤ pts.length := by
        omega
      have hlen1 := splice_length pts (g ((pts.drop p.first).take p.count) p).1 p.first hk
      show (pathFold g _ rest).1.length = pts.length
      rw [ih _ (p.first + p.count) (by rw [hlen1]; exact hrest)]
      exact hlen1

theorem pathFold_take (g : List VPoint → PathRec → List VPoint × PathRec)
    (Hg : SliceBody g) :
    ∀ (paths : List PathRec) (pts : List VPoint) (lo m : ℕ),
      pathsChainedB paths lo pts.length = true → m ≤ lo →
      (pathFold g pts paths).1.take m = pts.take m := by
  intro paths
  induction paths with
  | nil => intro pts lo m _ _; rfl
  | cons p rest ih =>
      intro pts lo m h hm
      simp only [pathsChainedB, Bool.and_eq_true, decide_eq_true_eq] at h
      obtain ⟨hlo, hrest⟩ := h
      have hfc : p.first + p.count ≤ pts.length := chained_le _ _ _ hrest
      have hsl : ((pts.drop p.first).take p.count).length = p.count := by
        simp only [List.length_take, List.length_drop]
        omega
      obtain ⟨hg1, hg2, _⟩ := Hg _ p hsl
      set ns := (g ((pts.drop p.first).take p.count) p).1 with hns
      have hk : p.first + ns.length ≤ pts.length := by omega
      have hlen1 := splice_length pts ns p.first hk
      show (pathFold g (pts.take p.first ++ ns ++ pts.drop (p.first + ns.length)) rest).1.take m
          = pts.take m
      rw [ih _ (p.first + p.count) m (by rw [hlen1]; exact hrest) (by omega)]
      have h1 : (pts.take p.first ++ ns ++ pts.drop (p.first + ns.length)).take p.first
          = pts.take p.first := splice_take pts ns p.first (by omega)
      have hmf : m ≤ p.first := le_trans hm hlo
      calc (pts.take p.first ++ ns ++ pts.drop (p.first + ns.length)).take m
          = ((pts.take p.first ++ ns ++ pts.drop (p.first + ns.length)).take p.first).take m := by
            rw [List.take_take, Nat.min_eq_left hmf]
        _ = (pts.take p.first).take m := by rw [h1]
        _ = pts.take m := by rw [List.take_take, Nat.min_eq_left hmf]

theorem pathFold_get (g : List VPoint → PathRec → List VPoint × PathRec)
    (Hg : SliceBody g) :
    ∀ (paths : List PathRec) (pts : List VPoint) (lo : ℕ),
      pathsChainedB paths lo pts.length = true →
      ∀ j, j < paths.length →
        (pathFold g pts paths).2.getD j default
          = (g ((pts.drop (paths.getD j default).first).take (paths.getD j default).count)
              (paths.getD j default)).2
        ∧ ((pathFold g pts paths).1.drop (paths.getD j default).first).take
            (g ((pts.drop (paths.getD j default).first).take (paths.getD j default).count)
              (paths.getD j default)).1.length
          = (g ((pts.drop (paths.getD j default).first).take (paths.getD j default).count)
              (paths.getD j default)).1 := by
  intro paths
  induction paths with
  | nil => intro pts lo _ j hj; simp at hj
  | cons p rest ih =>
      intro pts lo h j hj
      simp only [pathsChainedB, Bool.and_eq_true, decide_eq_true_eq] at h
      obtain ⟨hlo, hrest⟩ := h
      have hfc : p.first + p.count ≤ pts.length := chained_le _ _ _ hrest
      have hsl : ((pts.drop p.first).take p.count).length = p.count := by
        simp only [List.length_take, List.length_drop]
        omega
      obtain ⟨hg1, hg2, _⟩ := Hg _ p hsl
      have hk : p.first + (g ((pts.drop p.first).take p.count) p).1.length ≤ pts.length := by
        omega
      have hlen1 : (pts.take p.first ++ (g ((pts.drop p.first).take p.count) p).1
          ++ pts.drop (p.first + (g ((pts.drop p.first).take p.count) p).1.length)).length
          = pts.length :=
        splice_length pts (g ((pts.drop p.first).take p.count) p).1 p.first hk
      have hch1 : pathsChainedB rest (p.first + p.count)
          (pts.take p.first ++ (g ((pts.drop p.first).take p.count) p).1
            ++ pts.drop (p.first + (g ((pts.drop p.first).take p.count) p).1.length)).length
          = true := by
        rw [hlen1]
        exact hrest
      match j with
      | 0 =>
          simp only [List.getD_cons_zero]
          constructor
          · rfl
          · show (((pathFold g (pts.take p.first ++ (g ((pts.drop p.first).take p.count) p).1
                ++ pts.drop (p.first + (g ((pts.drop p.first).take p.count) p).1.length))
                rest).1.drop p.first).take (g ((pts.drop p.first).take p.count) p).1.length)
              = (g ((pts.drop p.first).take p.count) p).1
            have hres1 := pathFold_take g Hg rest _ (p.first + p.count)
              (p.first + (g ((pts.drop p.first).take p.count) p).1.length) hch1 (by omega)
            have e1 : ∀ l : List VPoint,
                (l.drop p.first).take (g ((pts.drop p.first).take p.count) p).1.length
                  = (l.take (p.first + (g ((pts.drop p.first).take p.count) p).1.length)).drop
                      p.first := by
              intro l
              rw [List.drop_take]
              congr 1
              omega
            rw [e1, hres1, ← e1]
            exact splice_mid pts (g ((pts.drop p.first).take p.count) p).1 p.first (by omega)
      | j + 1 =>
          simp only [List.getD_cons_succ]
          have hj' : j < rest.length := by simpa using hj
          have hIH := ih (pts.take p.first ++ (g ((pts.drop p.first).take p.count) p).1
              ++ pts.drop (p.first + (g ((pts.drop p.first).take p.count) p).1.length))
            (p.first + p.count) hch1 j hj'
          have hqf : p.first + p.count ≤ (rest.getD j default).first :=
            chained_first_ge rest _ _ hrest j hj'
          have hdropeq : (pts.take p.first ++ (g ((pts.drop p.first).take p.count) p).1
              ++ pts.drop (p.first + (g ((pts.drop p.first).take p.count) p).1.length)).drop
                (rest.getD j default).first
              = pts.drop (rest.getD j default).first :=
            splice_drop_ge pts (g ((pts.drop p.first).take p.count) p).1 p.first
              (rest.getD j default).first (by omega) (by omega)
          rw [hdropeq] at hIH
          exact hIH

/-- Integer clamp of the clamped crate: min(max(v, lo), hi). -/
def clampI (v lo hi : ℤ) : ℤ := min (max v lo) hi

/-- curve_divs of cache.rs: da = acos(r/(r+tol))*2, then ceil(arc/da)
clamped below by 2. -/
def curveDivs (o : FOracle) (r arc tol : ℚ) : ℕ :=
  let da := o.acos (r / (r + tol)) * 2
  (max ⌈arc / da⌉ 2).toNat

/-- choose_bevel of cache.rs: the two join anchor points, from the edge
normals when the inner-bevel flag is set, else both from dm. -/
def chooseBevel (bevel : Bool) (p0 p1 : VPoint) (w : ℚ) : Pt × Pt :=
  if bevel then
    (⟨p1.xy.x + p0.d.y * w, p1.xy.y - p0.d.x * w⟩,
     ⟨p1.xy.x + p1.d.y * w, p1.xy.y - p1.d.x * w⟩)
  else
    (⟨p1.xy.x + p1.dm.x * w, p1.xy.y + p1.dm.y * w⟩,
     ⟨p1.xy.x + p1.dm.x * w, p1.xy.y + p1.dm.y * w⟩)

/-- Concatenation of f 0, f 1, ..., f (n-1): the vertex-emitting loops. -/
def iterVerts (f : ℕ → List Vertex) : ℕ → List Vertex
  | 0 => []
  | n + 1 => iterVerts f n ++ f n

/-- The arc loop of the left-turn branch of round_join in cache.rs: per
step, the fan center then the arc point at angle a, computed with cos for
x and sin for y. -/
def roundJoinLeftArc (o : FOracle) (p1 : VPoint) (rw ru a0 a1 : ℚ) (n : ℤ) : List Vertex :=
  iterVerts (fun i =>
    let u := (i : ℚ) / ((n : ℚ) - 1)
    let a := a0 + u * (a1 - a0)
    [⟨p1.xy.x, p1.xy.y, 1/2, 1⟩,
     ⟨p1.xy.x + o.cos a * rw, p1.xy.y + o.sin a * rw, ru, 1⟩]) n.toNat

/-- The arc loop of the mirrored (non-left) branch of round_join in
cache.rs, translated verbatim: the source computes BOTH coordinates with
a.cos() (`let ly = a.cos() * lw` where the mirror of the left branch would
use a.sin()), so each arc point is p1 + (cos a * lw, cos a * lw). -/
def roundJoinMirrorArc (o : FOracle) (p1 : VPoint) (lw lu a0 a1 : ℚ) (n : ℤ) : List Vertex :=
  iterVerts (fun i =>
    let u := (i : ℚ) / ((n : ℚ) - 1)
    let a := a0 + u * (a1 - a0)
    [⟨p1.xy.x + o.cos a * lw, p1.xy.y + o.cos a * lw, lu, 1⟩,
     ⟨p1.xy.x, p1.xy.y, 1/2, 1⟩]) n.toNat

/-- round_join of cache.rs. -/
def roundJoin (o : FOracle) (p0 p1 : VPoint) (lw rw lu ru : ℚ) (ncap : ℕ) (_fr : ℚ) :
    List Vertex :=
  let dlx0 := p0.d.y
  let dly0 := -p0.d.x
  let dlx1 := p1.d.y
  let dly1 := -p1.d.x
  if p1.flags.left then
    let cb := chooseBevel p1.flags.innerBevel p0 p1 lw
    let a0 := o.atan2 (-dly0) (-dlx0)
    let a1p := o.atan2 (-dly1) (-dlx1)
    let a1 := if a0 < a1p then a1p - o.pi * 2 else a1p
    let n := clampI ⌈(a0 - a1) / o.pi * (ncap : ℚ)⌉ 2 (ncap : ℤ)
    [⟨cb.1.x, cb.1.y, lu, 1⟩,
     ⟨p1.xy.x - dlx0 * rw, p1.xy.y - dly0 * rw, ru, 1⟩]
    ++ roundJoinLeftArc o p1 rw ru a0 a1 n
    ++ [⟨cb.2.x, cb.2.y, lu, 1⟩,
        ⟨p1.xy.x - dlx1 * rw, p1.xy.y - dly1 * rw, ru, 1⟩]
  else
    let cb := chooseBevel p1.flags.innerBevel p0 p1 (-rw)
    let a0 := o.atan2 dly0 dlx0
    let a1p := o.atan2 dly1 dlx1
    let a1 := if a1p < a0 then a1p + o.pi * 2 else a1p
    let n := clampI ⌈(a0 - a1) / o.pi * (ncap : ℚ)⌉ 2 (ncap : ℤ)
    [⟨p1.xy.x + dlx0 * rw, p1.xy.y + dly0 * rw, lu, 1⟩,
     ⟨cb.1.x, cb.1.y, ru, 1⟩]
    ++ roundJoinMirrorArc o p1 lw lu a0 a1 n
    ++ [⟨p1.xy.x + dlx1 * rw, p1.xy.y + dly1 * rw, lu, 1⟩,
        ⟨cb.2.x, cb.2.y, ru, 1⟩]

/-- bevel_join of cache.rs. -/
def bevelJoin (p0 p1 : VPoint) (lw rw lu ru : ℚ) (_fr : ℚ) : List Vertex :=
  let dlx0 := p0.d.y
  let dly0 := -p0.d.x
  let dlx1 := p1.d.y
  let dly1 := -p1.d.x
  if p1.flags.left then
    let cb := chooseBevel p1.flags.innerBevel p0 p1 lw
    [⟨cb.1.x, cb.1.y, lu, 1⟩,
     ⟨p1.xy.x - dlx0 * rw, p1.xy.y - dly0 * rw, ru, 1⟩]
    ++ (if p1.flags.bevel then
        [⟨cb.1.x, cb.1.y, lu, 1⟩,
         ⟨p1.xy.x - dlx0 * rw, p1.xy.y - dly0 * rw, ru, 1⟩,
         ⟨cb.2.x, cb.2.y, lu, 1⟩,
         ⟨p1.xy.x - dlx1 * rw, p1.xy.y - dly1 * rw, ru, 1⟩]
      else
        [⟨p1.xy.x, p1.xy.y, 1/2, 1⟩,
         ⟨p1.xy.x - dlx0 * rw, p1.xy.y - dly0 * rw, ru, 1⟩,
         ⟨p1.xy.x - p1.dm.x * rw, p1.xy.y - p1.dm.y * rw, ru, 1⟩,
         ⟨p1.xy.x - p1.dm.x * rw, p1.xy.y - p1.dm.y * rw, ru, 1⟩,
         ⟨p1.xy.x, p1.xy.y, 1/2, 1⟩,
         ⟨p1.xy.x - dlx1 * rw, p1.xy.y - dly1 * rw, ru, 1⟩])
    ++ [⟨cb.2.x, cb.2.y, lu, 1⟩,
        ⟨p1.xy.x - dlx1 * rw, p1.xy.y - dly1 * rw, ru, 1⟩]
  else
    let cb := chooseBevel p1.flags.innerBevel p0 p1 (-rw)
    [⟨p1.xy.x + dlx0 * lw, p1.xy.y + dly0 * lw, lu, 1⟩,
     ⟨cb.1.x, cb.1.y, ru, 1⟩]
    ++ (if p1.flags.bevel then
        [⟨p1.xy.x + dlx0 * lw, p1.xy.y + dly0 * lw, lu, 1⟩,
         ⟨cb.1.x, cb.1.y, ru, 1⟩,
         ⟨p1.xy.x + dlx1 * lw, p1.xy.y + dly1 * lw, lu, 1⟩,
         ⟨cb.2.x, cb.2.y, ru, 1⟩]
      else
        [⟨p1.xy.x + dlx0 * lw, p1.xy.y + dly0 * lw, lu, 1⟩,
         ⟨p1.xy.x, p1.xy.y, 1/2, 1⟩,
         ⟨p1.xy.x + p1.dm.x * lw, p1.xy.y + p1.dm.y * lw, lu, 1⟩,
         ⟨p1.xy.x + p1.dm.x * lw, p1.xy.y + p1.dm.y * lw, lu, 1⟩,
         ⟨p1.xy.x + dlx1 * lw, p1.xy.y + dly1 * lw, lu, 1⟩,
         ⟨p1.xy.x, p1.xy.y, 1/2, 1⟩])
    ++ [⟨p1.xy.x + dlx1 * lw, p1.xy.y + dly1 * lw, lu, 1⟩,
        ⟨cb.2.x, cb.2.y, ru, 1⟩]

/-- butt_cap_start of cache.rs: two fringe vertices inset by d along the
direction, then the two solid edge vertices; 4 vertices in all. -/
def buttCapStart (p : VPoint) (dx dy w d aa u0 u1 : ℚ) : List Vertex :=
  let px := p.xy.x - dx * d
  let py := p.xy.y - dy * d
  let dlx := dy
  let dly := -dx
  [⟨px + dlx * w - dx * aa, py + dly * w - dy * aa, u0, 0⟩,
   ⟨px - dlx * w - dx * aa, py - dly * w - dy * aa, u1, 0⟩,
   ⟨px + dlx * w, py + dly * w, u0, 1⟩,
   ⟨px - dlx * w, py - dly * w, u1, 1⟩]

/-- butt_cap_end of cache.rs; 4 vertices. -/
def buttCapEnd (p : VPoint) (dx dy w d aa u0 u1 : ℚ) : List Vertex :=
  let px := p.xy.x - dx * d
  let py := p.xy.y - dy * d
  let dlx := dy
  let dly := -dx
  [⟨px + dlx * w, py + dly * w, u0, 1⟩,
   ⟨px - dlx * w, py - dly * w, u1, 1⟩,
   ⟨px + dlx * w + dx * aa, py + dly * w + dy * aa, u0, 0⟩,
   ⟨px - dlx * w + dx * aa, py - dly * w + dy * aa, u1, 0⟩]

/-- round_cap_start of cache.rs: ncap arc pairs then the two edge
vertices; 2*ncap + 2 vertices. -/
def roundCapStart (o : FOracle) (p : VPoint) (dx dy w : ℚ) (ncap : ℕ) (_aa u0 u1 : ℚ) :
    List Vertex :=
  let px := p.xy.x
  let py := p.xy.y
  let dlx := dy
  let dly := -dx
  iterVerts (fun i =>
    let a := (i : ℚ) / ((ncap : ℚ) - 1) * o.pi
    let ax := o.cos a * w
    let ay := o.sin a * w
    [⟨px - dlx * ax - dx * ay, py - dly * ax - dy * ay, u0, 1⟩,
     ⟨px, py, 1/2, 1⟩]) ncap
  ++ [⟨px + dlx * w, py + dly * w, u0, 1⟩,
      ⟨px - dlx * w, py - dly * w, u1, 1⟩]

/-- round_cap_end of cache.rs: the two edge vertices then ncap arc pairs;
2*ncap + 2 vertices. -/
def roundCapEnd (o : FOracle) (p : VPoint) (dx dy w : ℚ) (ncap : ℕ) (_aa u0 u1 : ℚ) :
    List Vertex :=
  let px := p.xy.x
  let py := p.xy.y
  let dlx := dy
  let dly := -dx
  [⟨px + dlx * w, py + dly * w, u0, 1⟩,
   ⟨px - dlx * w, py - dly * w, u1, 1⟩]
  ++ iterVerts (fun i =>
      let a := (i : ℚ) / ((ncap : ℚ) - 1) * o.pi
      let ax := o.cos a * w
      let ay := o.sin a * w
      [⟨px, py, 1/2, 1⟩,
       ⟨px - dlx * ax + dx * ay, py - dly * ax + dy * ay, u0, 1⟩]) ncap

/-- Concatenated emission over a list of (p0, p1) pairs: the join loops of
expand_stroke and the fringe loops of expand_fill. -/
def emitPairs (f : VPoint × VPoint → List Vertex) : List (VPoint × VPoint) → List Vertex
  | [] => []
  | pr :: rest => f pr ++ emitPairs f rest

/-- The normalized direction from p0 to p1 (the cap-direction computation
of expand_stroke). -/
def normDir (o : FOracle) (p0 p1 : Pt) : Pt :=
  (normalizeQ o ⟨p1.x - p0.x, p1.y - p0.y⟩).1

/-- The per-point emission of the main loop of expand_stroke: a round or
bevel join for a beveled point, else the plain offset pair along dm. -/
def strokeJoinEmit (o : FOracle) (lj : LineJoin) (w u0 u1 : ℚ) (ncap : ℕ) (aa : ℚ)
    (pr : VPoint × VPoint) : List Vertex :=
  if pr.2.flags.bevel || pr.2.flags.innerBevel then
    if lj = .Round then roundJoin o pr.1 pr.2 w w u0 u1 ncap aa
    else bevelJoin pr.1 pr.2 w w u0 u1 aa
  else
    [⟨pr.2.xy.x + pr.2.dm.x * w, pr.2.xy.y + pr.2.dm.y * w, u0, 1⟩,
     ⟨pr.2.xy.x - pr.2.dm.x * w, pr.2.xy.y - pr.2.dm.y * w, u1, 1⟩]

/-- The per-path body of expand_stroke.  A closed path emits joins for all
count points and then wraps around by copying the first two emitted
vertices.  An open path emits a start cap, joins for the interior points,
and an end cap; note the source's end-cap match sends LineCap::Round to
butt_cap_end with the square inset w - aa and LineCap::Square to
round_cap_end (the reverse of the start-cap match). -/
def strokeExpandPath (o : FOracle) (pts : List VPoint) (w aa u0 u1 : ℚ) (cap : LineCap)
    (lj : LineJoin) (ncap : ℕ) (p : PathRec) : PathRec :=
  let slice := (pts.drop p.first).take p.count
  if p.closed then
    let core := emitPairs (strokeJoinEmit o lj w u0 u1 ncap aa) ((prevList slice).zip slice)
    let v0 := core.getD 0 default
    let v1 := core.getD 1 default
    { p with fill := [], stroke := core ++ [⟨v0.x, v0.y, u0, 1⟩, ⟨v1.x, v1.y, u1, 1⟩] }
  else
    let q0 := slice.getD 0 default
    let q1 := slice.getD 1 default
    let dStart := normDir o q0.xy q1.xy
    let startCap :=
      match cap with
      | .Butt => buttCapStart q0 dStart.x dStart.y w (-aa * (1/2)) aa u0 u1
      | .Square => buttCapStart q0 dStart.x dStart.y w (w - aa) aa u0 u1
      | .Round => roundCapStart o q0 dStart.x dStart.y w ncap aa u0 u1
    let core := emitPairs (strokeJoinEmit o lj w u0 u1 ncap aa) ((slice.zip slice.tail).dropLast)
    let r0 := slice.getD (p.count - 2) default
    let r1 := slice.getD (p.count - 1) default
    let dEnd := normDir o r0.xy r1.xy
    let endCap :=
      match cap with
      | .Butt => buttCapEnd r1 dEnd.x dEnd.y w (-aa * (1/2)) aa u0 u1
      | .Round => buttCapEnd r1 dEnd.x dEnd.y w (w - aa) aa u0 u1
      | .Square => roundCapEnd o r1 dEnd.x dEnd.y w ncap aa u0 u1
    { p with fill := [], stroke := startCap ++ core ++ endCap }

/-- PathCache::expand_stroke of cache.rs: ncap from the uninflated radius,
the half-fringe inflation of w, the u collapse at zero fringe, then joins
and per-path emission. -/
def expandStroke (o : FOracle) (st : CacheState) (w0 fringe : ℚ) (cap : LineCap)
    (lj : LineJoin) (ml tessTol : ℚ) : CacheState :=
  let aa := fringe
  let ncap := curveDivs o w0 o.pi tessTol
  let w := w0 + aa * (1/2)
  let u0 := if aa = 0 then (1/2 : ℚ) else 0
  let u1 := if aa = 0 then (1/2 : ℚ) else 1
  let st1 := calculateJoins st w lj ml
  { st1 with paths := st1.paths.map (strokeExpandPath o st1.points w aa u0 u1 cap lj ncap) }

/-- l.getD with the default VPoint, to keep statements total. -/
def ptAt (l : List VPoint) (i : ℕ) : VPoint := l.getD i default

/-- The per-point emission of the fringe fill loop of expand_fill. -/
def fillFringeVert (woff : ℚ) (pr : VPoint × VPoint) : List Vertex :=
  let p0 := pr.1
  let p1 := pr.2
  if p1.flags.bevel then
    if p1.flags.left then
      [⟨p1.xy.x + p1.dm.x * woff, p1.xy.y + p1.dm.y * woff, 1/2, 1⟩]
    else
      [⟨p1.xy.x + p0.d.y * woff, p1.xy.y + -p0.d.x * woff, 1/2, 1⟩,
       ⟨p1.xy.x + p1.d.y * woff, p1.xy.y + -p1.d.x * woff, 1/2, 1⟩]
  else
    [⟨p1.xy.x + p1.dm.x * woff, p1.xy.y + p1.dm.y * woff, 1/2, 1⟩]

/-- The per-point emission of the fringe ring loop of expand_fill. -/
def fillRingVert (lw rw lu ru fr : ℚ) (pr : VPoint × VPoint) : List Vertex :=
  if pr.2.flags.bevel || pr.2.flags.innerBevel then
    bevelJoin pr.1 pr.2 lw rw lu ru fr
  else
    [⟨pr.2.xy.x + pr.2.dm.x * lw, pr.2.xy.y + pr.2.dm.y * lw, lu, 1⟩,
     ⟨pr.2.xy.x - pr.2.dm.x * rw, pr.2.xy.y - pr.2.dm.y * rw, ru, 1⟩]

/-- The per-path body of expand_fill: with the fringe off, the fill
vertices are exactly the path's count points at UV (0.5, 1.0) and there is
no stroke ring; with the fringe on, the woff-inset fill plus the fringe
ring with its two wrap-around vertices. -/
def fillExpandPath (pts : List VPoint) (fringeOn : Bool) (woff w fringeWidth : ℚ)
    (convexAll : Bool) (p : PathRec) : PathRec :=
  let slice := (pts.drop p.first).take p.count
  let fillVerts :=
    if fringeOn then
      emitPairs (fillFringeVert woff) ((prevList slice).zip slice)
    else
      (List.range p.count).map (fun j =>
        (⟨(ptAt pts (p.first + j)).xy.x, (ptAt pts (p.first + j)).xy.y, 1/2, 1⟩ : Vertex))
  if fringeOn then
    let lw := if convexAll then woff else w + woff
    let rw := w - woff
    let lu := if convexAll then (1/2 : ℚ) else 0
    let ru := (1 : ℚ)
    let ring := emitPairs (fillRingVert lw rw lu ru fringeWidth) ((prevList slice).zip slice)
    let v0 := ring.getD 0 default
    let v1 := ring.getD 1 default
    { p with fill := fillVerts,
             stroke := ring ++ [⟨v0.x, v0.y, lu, 1⟩, ⟨v1.x, v1.y, ru, 1⟩] }
  else
    { p with fill := fillVerts, stroke := [] }

/-- PathCache::expand_fill of cache.rs. -/
def expandFill (st : CacheState) (w : ℚ) (lj : LineJoin) (ml fringeWidth : ℚ) : CacheState :=
  let aa := fringeWidth
  let fringeOn := decide (0 < w)
  let st1 := calculateJoins st w lj ml
  let convexAll := decide (st1.paths.length = 1) && (st1.paths.getD 0 default).convex
  let woff := (1/2) * aa
  { st1 with paths := st1.paths.map (fillExpandPath st1.points fringeOn woff w aa convexAll) }

/-- C3: in round_join's mirrored (non-left-turn) branch every arc vertex is
placed at (p1.x + cos(a)*lw, p1.y + cos(a)*lw) — the y offset uses a.cos()
where the mirror image of the left-turn branch would use a.sin() — so each
vertex emitted by the arc loop satisfies v.y - p1.y = v.x - p1.x, and
round_join in that branch is the two lead-in vertices, the arc loop, and
the two lead-out vertices. -/
theorem claim_C3_round_join_mirror_cos :
    (∀ (o : FOracle) (p1 : VPoint) (lw lu a0 a1 : ℚ) (n : ℤ) (v : Vertex),
        v ∈ roundJoinMirrorArc o p1 lw lu a0 a1 n → v.y - p1.xy.y = v.x - p1.xy.x)
    ∧ ∀ (o : FOracle) (p0 p1 : VPoint) (lw rw lu ru : ℚ) (ncap : ℕ) (fr : ℚ),
        p1.flags.left = false →
        roundJoin o p0 p1 lw rw lu ru ncap fr =
          [⟨p1.xy.x + p0.d.y * rw, p1.xy.y + -p0.d.x * rw, lu, 1⟩,
           ⟨(chooseBevel p1.flags.innerBevel p0 p1 (-rw)).1.x,
            (chooseBevel p1.flags.innerBevel p0 p1 (-rw)).1.y, ru, 1⟩]
          ++ roundJoinMirrorArc o p1 lw lu (o.atan2 (-p0.d.x) p0.d.y)
              (if o.atan2 (-p1.d.x) p1.d.y < o.atan2 (-p0.d.x) p0.d.y
               then o.atan2 (-p1.d.x) p1.d.y + o.pi * 2 else o.atan2 (-p1.d.x) p1.d.y)
              (clampI ⌈(o.atan2 (-p0.d.x) p0.d.y -
                  (if o.atan2 (-p1.d.x) p1.d.y < o.atan2 (-p0.d.x) p0.d.y
                   then o.atan2 (-p1.d.x) p1.d.y + o.pi * 2 else o.atan2 (-p1.d.x) p1.d.y))
                  / o.pi * (ncap : ℚ)⌉ 2 (ncap : ℤ))
          ++ [⟨p1.xy.x + p1.d.y * rw, p1.xy.y + -p1.d.x * rw, lu, 1⟩,
              ⟨(chooseBevel p1.flags.innerBevel p0 p1 (-rw)).2.x,
               (chooseBevel p1.flags.innerBevel p0 p1 (-rw)).2.y, ru, 1⟩] := by
  constructor
  · intro o p1 lw lu a0 a1 n v hv
    unfold roundJoinMirrorArc at hv
    generalize n.toNat = m at hv
    induction m with
    | zero => simp [iterVerts] at hv
    | succ k ih =>
        simp only [iterVerts, List.mem_append] at hv
        rcases hv with hv | hv
        · exact ih hv
        · simp only [List.mem_cons, List.not_mem_nil, or_false] at hv
          rcases hv with rfl | rfl
          · show (p1.xy.y + _ * lw) - p1.xy.y = (p1.xy.x + _ * lw) - p1.xy.x
            ring
          · show p1.xy.y - p1.xy.y = p1.xy.x - p1.xy.x
            ring
  · intro o p0 p1 lw rw lu ru ncap fr h
    unfold roundJoin
    rw [h]
    simp only [Bool.false_eq_true, if_false]

/-- Witness for C3 at a concrete mirrored join: a VPoint with the left flag
unset, and a concrete arc vertex obeying the diagonal property. -/
theorem claim_C3_round_join_mirror_cos_witness :
    ((⟨(1:ℚ)/2, (1:ℚ)/2, 0, 1⟩ : Vertex).y - (⟨⟨0,0⟩,⟨0,0⟩,0,⟨0,0⟩,noFlags⟩ : VPoint).xy.y
        = (⟨(1:ℚ)/2, (1:ℚ)/2, 0, 1⟩ : Vertex).x - (⟨⟨0,0⟩,⟨0,0⟩,0,⟨0,0⟩,noFlags⟩ : VPoint).xy.x)
    ∧ roundJoin oracleQ ⟨⟨0,0⟩,⟨0,0⟩,0,⟨0,0⟩,noFlags⟩ ⟨⟨0,0⟩,⟨0,0⟩,0,⟨0,0⟩,noFlags⟩ 1 1 0 1 2 0
        = [⟨0, 0, 0, 1⟩, ⟨0, 0, 1, 1⟩]
            ++ roundJoinMirrorArc oracleQ ⟨⟨0,0⟩,⟨0,0⟩,0,⟨0,0⟩,noFlags⟩ 1 0 0 0 2
            ++ [⟨0, 0, 0, 1⟩, ⟨0, 0, 1, 1⟩] := by
  constructor
  · apply claim_C3_round_join_mirror_cos.1 oracleQ ⟨⟨0,0⟩,⟨0,0⟩,0,⟨0,0⟩,noFlags⟩ 1 0 0 0 2
      ⟨1/2, 1/2, 0, 1⟩
    norm_num [roundJoinMirrorArc, iterVerts, oracleQ, show ((2:ℤ).toNat) = 1 + 1 from rfl]
  · rw [claim_C3_round_join_mirror_cos.2 oracleQ ⟨⟨0,0⟩,⟨0,0⟩,0,⟨0,0⟩,noFlags⟩
      ⟨⟨0,0⟩,⟨0,0⟩,0,⟨0,0⟩,noFlags⟩ 1 1 0 1 2 0 rfl]
    norm_num [chooseBevel, oracleQ, clampI, noFlags]

/-- The 10 by 10 rect at the origin. -/
def rect10 : RectQ := ⟨⟨0, 0⟩, ⟨10, 10⟩⟩

/-- rect(0,0,10,10) under the identity transform. -/
def rectSquareCmds : List Cmd := rectCmds identityT rect10

/-- The same square declared as a Hole. -/
def holeSquareCmds : List Cmd :=
  [.moveTo ⟨0, 0⟩, .lineTo ⟨0, 10⟩, .lineTo ⟨10, 10⟩, .lineTo ⟨10, 0⟩, .solidity .Hole, .close]

/-- An open corner with one short (length 1) and one long (length 100) leg. -/
def cornerCmds : List Cmd := [.moveTo ⟨0, 0⟩, .lineTo ⟨0, 1⟩, .lineTo ⟨100, 1⟩]

/-- A single open segment of length 10. -/
def segCmds : List Cmd := [.moveTo ⟨0, 0⟩, .lineTo ⟨10, 0⟩]

theorem eval_rect_flatten :
    flattenPaths oracleQ rectSquareCmds (1/100) (1/4) =
      ⟨[⟨⟨0, 0⟩, ⟨0, 1⟩, 10, ⟨0, 0⟩, cornerFlag⟩,
        ⟨⟨0, 10⟩, ⟨1, 0⟩, 10, ⟨0, 0⟩, cornerFlag⟩,
        ⟨⟨10, 10⟩, ⟨0, -1⟩, 10, ⟨0, 0⟩, cornerFlag⟩,
        ⟨⟨10, 0⟩, ⟨-1, 0⟩, 10, ⟨0, 0⟩, cornerFlag⟩],
       [⟨0, 4, true, 0, .Solid, [], [], false⟩],
       ⟨⟨0, 0⟩, ⟨10, 10⟩⟩⟩ := by
  norm_num +decide [flattenPaths, flattenFinish, flattenStep1, flattenCmd, addPath, addPoint,
    closeLastPath, setSolidity, ptEqualsB, pathFold, flattenFixSlice, polyArea, fanSum,
    triArea, setDirs, normalizeQ, oracleQ, cacheBounds, boundsAddPt, f32Max, emptyCache,
    rectCmds, rect10, rectSquareCmds, transformPt, identityT, prevList, cornerFlag]

theorem eval_hole_flatten :
    flattenPaths oracleQ holeSquareCmds (1/100) (1/4) =
      ⟨[⟨⟨10, 0⟩, ⟨0, 1⟩, 10, ⟨0, 0⟩, cornerFlag⟩,
        ⟨⟨10, 10⟩, ⟨-1, 0⟩, 10, ⟨0, 0⟩, cornerFlag⟩,
        ⟨⟨0, 10⟩, ⟨0, -1⟩, 10, ⟨0, 0⟩, cornerFlag⟩,
        ⟨⟨0, 0⟩, ⟨1, 0⟩, 10, ⟨0, 0⟩, cornerFlag⟩],
       [⟨0, 4, true, 0, .Hole, [], [], false⟩],
       ⟨⟨0, 0⟩, ⟨10, 10⟩⟩⟩ := by
  norm_num +decide [flattenPaths, flattenFinish, flattenStep1, flattenCmd, addPath, addPoint,
    closeLastPath, setSolidity, ptEqualsB, pathFold, flattenFixSlice, polyArea, fanSum,
    triArea, setDirs, normalizeQ, oracleQ, cacheBounds, boundsAddPt, f32Max, emptyCache,
    holeSquareCmds, prevList, cornerFlag]

theorem eval_corner_flatten :
    flattenPaths oracleQ cornerCmds (1/100) (1/4) =
      ⟨[⟨⟨0, 0⟩, ⟨0, 1⟩, 1, ⟨0, 0⟩, cornerFlag⟩,
        ⟨⟨0, 1⟩, ⟨1, 0⟩, 100, ⟨0, 0⟩, cornerFlag⟩,
        ⟨⟨100, 1⟩, ⟨-1, -1/100⟩, 100, ⟨0, 0⟩, cornerFlag⟩],
       [⟨0, 3, false, 0, .Solid, [], [], false⟩],
       ⟨⟨0, 0⟩, ⟨100, 1⟩⟩⟩ := by
  norm_num +decide [flattenPaths, flattenFinish, flattenStep1, flattenCmd, addPath, addPoint,
    closeLastPath, setSolidity, ptEqualsB, pathFold, flattenFixSlice, polyArea, fanSum,
    triArea, setDirs, normalizeQ, oracleQ, cacheBounds, boundsAddPt, f32Max, emptyCache,
    cornerCmds, prevList, cornerFlag]

theorem eval_seg_flatten :
    flattenPaths oracleQ segCmds (1/100) (1/4) =
      ⟨[⟨⟨0, 0⟩, ⟨1, 0⟩, 10, ⟨0, 0⟩, cornerFlag⟩,
        ⟨⟨10, 0⟩, ⟨-1, 0⟩, 10, ⟨0, 0⟩, cornerFlag⟩],
       [⟨0, 2, false, 0, .Solid, [], [], false⟩],
       ⟨⟨0, 0⟩, ⟨10, 0⟩⟩⟩ := by
  norm_num +decide [flattenPaths, flattenFinish, flattenStep1, flattenCmd, addPath, addPoint,
    closeLastPath, setSolidity, ptEqualsB, pathFold, flattenFixSlice, polyArea, fanSum,
    triArea, setDirs, normalizeQ, oracleQ, cacheBounds, boundsAddPt, f32Max, emptyCache,
    segCmds, prevList, cornerFlag]

theorem chained_fc_le : ∀ (paths : List PathRec) (lo n : ℕ),
    pathsChainedB paths lo n = true →
    ∀ j, j < paths.length →
      (paths.getD j default).first + (paths.getD j default).count ≤ n := by
  intro paths
  induction paths with
  | nil => intro lo n _ j hj; simp at hj
  | cons p rest ih =>
      intro lo n h j hj
      simp only [pathsChainedB, Bool.and_eq_true, decide_eq_true_eq] at h
      match j with
      | 0 => exact chained_le _ _ _ h.2
      | j + 1 =>
          have hj' : j < rest.length := by simpa using hj
          exact ih (p.first + p.count) n h.2 j hj'

theorem take_drop_getD (l : List VPoint) (f c k : ℕ) (hk : k < c) :
    ((l.drop f).take c).getD k default = l.getD (f + k) default := by
  rw [List.getD_eq_getElem?_getD, List.getD_eq_getElem?_getD, List.getElem?_take, if_pos hk,
    List.getElem?_drop]

theorem prevList_length (l : List VPoint) : (prevList l).length = l.length := by
  cases l with
  | nil => rfl
  | cons p t => simp [prevList]

theorem setDirs_length (o : FOracle) (l : List VPoint) : (setDirs o l).length = l.length := by
  cases l with
  | nil => rfl
  | cons p t => simp [setDirs]

theorem prevList_getD_zero (l : List VPoint) (h : l ≠ []) :
    (prevList l).getD 0 default = l.getD (l.length - 1) default := by
  cases l with
  | nil => simp at h
  | cons p t =>
      cases t with
      | nil => rfl
      | cons q s =>
          show (q :: s).getLastD p = (p :: q :: s).getD ((p :: q :: s).length - 1) default
          rw [List.getLastD_eq_getLast?, List.getLast?_eq_getElem?, List.getD_eq_getElem?_getD]
          have hlen : (p :: q :: s).length - 1 = s.length + 1 := by simp
          rw [hlen, List.getElem?_cons_succ]
          have hb : s.length < (q :: s).length := by simp
          have hq : (q :: s).length - 1 = s.length := by simp
          rw [hq]
          simp only [List.getElem?_eq_getElem hb, Option.getD_some]

theorem prevList_getD_succ (l : List VPoint) (k : ℕ) (hk : k + 1 < l.length) :
    (prevList l).getD (k + 1) default = l.getD k default := by
  cases l with
  | nil => simp at hk
  | cons p t =>
      show ((p :: t).dropLast).getD k default = (p :: t).getD k default
      rw [List.getD_eq_getElem?_getD, List.getD_eq_getElem?_getD, List.getElem?_dropLast,
        if_pos (by simp at hk ⊢; omega)]

theorem joinSlice_getD (iw : ℚ) (lj : LineJoin) (ml : ℚ) (slice : List VPoint) (p : PathRec)
    (k : ℕ) (hk : k < slice.length) :
    (joinSliceG iw lj ml slice p).1.getD k default
      = joinPoint iw lj ml ((prevList slice).getD k default) (slice.getD k default) := by
  have hzl : ((prevList slice).zip slice).length = slice.length := by
    simp [prevList_length]
  have hz : k < ((prevList slice).zip slice).length := by omega
  have hm : k < (((prevList slice).zip slice).map
      (fun pr => joinPoint iw lj ml pr.1 pr.2)).length := by
    simpa using hz
  show (((prevList slice).zip slice).map (fun pr => joinPoint iw lj ml pr.1 pr.2)).getD k default
      = _
  rw [List.getD_eq_getElem _ _ hm, List.getElem_map, List.getElem_zip,
    List.getD_eq_getElem _ _ (by rw [prevList_length]; exact hk),
    List.getD_eq_getElem _ _ hk]

theorem joinSlice_body (iw : ℚ) (lj : LineJoin) (ml : ℚ) : SliceBody (joinSliceG iw lj ml) := by
  intro sl p h
  refine ⟨?_, ?_, rfl⟩
  · show (((prevList sl).zip sl).map _).length = p.count
    simp [prevList_length, h]
  · exact le_refl _

theorem joinPoint_innerBevel (iw : ℚ) (lj : LineJoin) (ml : ℚ) (p0 p1 : VPoint) :
    (joinPoint iw lj ml p0 p1).flags.innerBevel
      = decide (dmr2V p0 p1 * max (min p0.len p1.len * iw) (101/100)
          * max (min p0.len p1.len * iw) (101/100) < 1) := rfl

theorem joinPoint_left (iw : ℚ) (lj : LineJoin) (ml : ℚ) (p0 p1 : VPoint) :
    (joinPoint iw lj ml p0 p1).flags.left = decide (0 < crossV p0 p1) := rfl

theorem calcJoins_point (st : CacheState) (w : ℚ) (lj : LineJoin) (ml : ℚ) (j k : ℕ)
    (hch : pathsChainedB st.paths 0 st.points.length = true)
    (hj : j < st.paths.length) (hk : k < (st.paths.getD j default).count) :
    (calculateJoins st w lj ml).points.getD ((st.paths.getD j default).first + k) default
      = joinPoint (if 0 < w then 1/w else 0) lj ml
          (st.points.getD ((st.paths.getD j default).first +
            (k + (st.paths.getD j default).count - 1) % (st.paths.getD j default).count) default)
          (st.points.getD ((st.paths.getD j default).first + k) default) := by
  have hfc := chained_fc_le st.paths 0 st.points.length hch j hj
  have hslen : (((st.points.drop (st.paths.getD j default).first).take
      (st.paths.getD j default).count)).length = (st.paths.getD j default).count := by
    simp only [List.length_take, List.length_drop]
    omega
  have hregion := (pathFold_get _ (joinSlice_body (if 0 < w then 1/w else 0) lj ml)
    st.paths st.points 0 hch j hj).2
  have hnsl : (joinSliceG (if 0 < w then 1/w else 0) lj ml
      ((st.points.drop (st.paths.getD j default).first).take (st.paths.getD j default).count)
      (st.paths.getD j default)).1.length = (st.paths.getD j default).count :=
    (joinSlice_body _ lj ml _ _ hslen).1
  have hlhs : (calculateJoins st w lj ml).points
      = (pathFold (joinSliceG (if 0 < w then 1/w else 0) lj ml) st.points st.paths).1 := rfl
  rw [hlhs]
  have hstep : (pathFold (joinSliceG (if 0 < w then 1/w else 0) lj ml) st.points
        st.paths).1.getD ((st.paths.getD j default).first + k) default
      = (joinSliceG (if 0 < w then 1/w else 0) lj ml
          ((st.points.drop (st.paths.getD j default).first).take (st.paths.getD j default).count)
          (st.paths.getD j default)).1.getD k default := by
    rw [← hregion]
    rw [take_drop_getD _ _ _ _ (by rw [hnsl]; omega : k < (joinSliceG
      (if 0 < w then 1/w else 0) lj ml
      ((st.points.drop (st.paths.getD j default).first).take (st.paths.getD j default).count)
      (st.paths.getD j default)).1.length)]
  rw [hstep, joinSlice_getD _ _ _ _ _ _ (by omega)]
  have hcur : ((st.points.drop (st.paths.getD j default).first).take
      (st.paths.getD j default).count).getD k default
      = st.points.getD ((st.paths.getD j default).first + k) default :=
    take_drop_getD _ _ _ _ hk
  rw [hcur]
  match k, hk with
  | 0, hk =>
      have hne : ((st.points.drop (st.paths.getD j default).first).take
          (st.paths.getD j default).count) ≠ [] :=
        List.ne_nil_of_length_pos (by rw [hslen]; omega)
      rw [prevList_getD_zero _ hne, hslen]
      have hm : (0 + (st.paths.getD j default).count - 1) % (st.paths.getD j default).count
          = (st.paths.getD j default).count - 1 := by
        have h0 : 0 + (st.paths.getD j default).count - 1
            = (st.paths.getD j default).count - 1 := by omega
        rw [h0]
        exact Nat.mod_eq_of_lt (by omega)
      rw [hm, take_drop_getD _ _ _ _ (by omega)]
  | k' + 1, hk =>
      rw [prevList_getD_succ _ k' (by omega)]
      have hm : (k' + 1 + (st.paths.getD j default).count - 1) % (st.paths.getD j default).count
          = k' := by
        have h1 : k' + 1 + (st.paths.getD j default).count - 1
            = k' + (st.paths.getD j default).count := by omega
        rw [h1, Nat.add_mod_right]
        exact Nat.mod_eq_of_lt (by omega)
      rw [hm, take_drop_getD _ _ _ _ (by omega)]

/-- C2 (amended): for every point of every subpath, calculate_joins sets the
InnerBevel flag exactly when dmr2 * limit * limit < 1 with
limit = max(min(len0, len1) / strokeWidth, 1.01): the source clamps with the
SHORTER of the two adjacent segment lengths, not the longer, where len0 is
the incoming point's len, len1 the point's own len, and dmr2 the squared
norm of the unscaled averaged miter direction. -/
theorem claim_C2_inner_bevel_min_len (st : CacheState) (w : ℚ) (lj : LineJoin) (ml : ℚ)
    (j k : ℕ) (hch : pathsChainedB st.paths 0 st.points.length = true) (hw : 0 < w)
    (hj : j < st.paths.length) (hk : k < (st.paths.getD j default).count) :
    (((calculateJoins st w lj ml).points.getD ((st.paths.getD j default).first + k)
        default).flags.innerBevel = true)
      ↔ dmr2V (st.points.getD ((st.paths.getD j default).first +
            (k + (st.paths.getD j default).count - 1) % (st.paths.getD j default).count) default)
          (st.points.getD ((st.paths.getD j default).first + k) default)
        * max (min (st.points.getD ((st.paths.getD j default).first +
              (k + (st.paths.getD j default).count - 1) % (st.paths.getD j default).count)
              default).len
            (st.points.getD ((st.paths.getD j default).first + k) default).len / w) (101/100)
        * max (min (st.points.getD ((st.paths.getD j default).first +
              (k + (st.paths.getD j default).count - 1) % (st.paths.getD j default).count)
              default).len
            (st.points.getD ((st.paths.getD j default).first + k) default).len / w) (101/100)
      < 1 := by
  rw [calcJoins_point st w lj ml j k hch hj hk, joinPoint_innerBevel, if_pos hw,
    decide_eq_true_eq]
  simp only [mul_one_div]

/-- C2 counterexample: at the flattened corner path (legs of length 1 and
100, joined at the point of index 1), calculate_joins with w = 1 sets the
InnerBevel flag although dmr2 * limit * limit with the claim's
limit = max(max(len0, len1) / strokeWidth, 1.01) is 5000, far above 1: the
claimed iff is false at this concrete input. -/
theorem claim_C2_counterexample_max_len :
    ¬((((calculateJoins (flattenPaths oracleQ cornerCmds (1/100) (1/4)) 1 .Miter 10).points.getD
          1 default).flags.innerBevel = true)
        ↔ dmr2V ((flattenPaths oracleQ cornerCmds (1/100) (1/4)).points.getD 0 default)
            ((flattenPaths oracleQ cornerCmds (1/100) (1/4)).points.getD 1 default)
          * max (max ((flattenPaths oracleQ cornerCmds (1/100) (1/4)).points.getD 0 default).len
                ((flattenPaths oracleQ cornerCmds (1/100) (1/4)).points.getD 1 default).len / 1)
              (101/100)
          * max (max ((flattenPaths oracleQ cornerCmds (1/100) (1/4)).points.getD 0 default).len
                ((flattenPaths oracleQ cornerCmds (1/100) (1/4)).points.getD 1 default).len / 1)
              (101/100)
        < 1) := by
  rw [eval_corner_flatten]
  norm_num +decide [calculateJoins, pathFold, joinSliceG, joinPoint, prevList, dmr2V,
    crossV, cornerFlag]

/-- Witness for the amended C2 at the concrete corner path, point index 1 of
subpath 0, stroke half-width 1. -/
theorem claim_C2_inner_bevel_min_len_witness :
    (((calculateJoins (flattenPaths oracleQ cornerCmds (1/100) (1/4)) 1 .Miter 10).points.getD
        (((flattenPaths oracleQ cornerCmds (1/100) (1/4)).paths.getD 0 default).first + 1)
        default).flags.innerBevel = true)
      ↔ dmr2V ((flattenPaths oracleQ cornerCmds (1/100) (1/4)).points.getD
            (((flattenPaths oracleQ cornerCmds (1/100) (1/4)).paths.getD 0 default).first +
              (1 + ((flattenPaths oracleQ cornerCmds (1/100) (1/4)).paths.getD 0 default).count
                - 1) % ((flattenPaths oracleQ cornerCmds (1/100) (1/4)).paths.getD 0
                default).count) default)
          ((flattenPaths oracleQ cornerCmds (1/100) (1/4)).points.getD
            (((flattenPaths oracleQ cornerCmds (1/100) (1/4)).paths.getD 0 default).first + 1)
            default)
        * max (min ((flattenPaths oracleQ cornerCmds (1/100) (1/4)).points.getD
              (((flattenPaths oracleQ cornerCmds (1/100) (1/4)).paths.getD 0 default).first +
                (1 + ((flattenPaths oracleQ cornerCmds (1/100) (1/4)).paths.getD 0
                  default).count - 1) % ((flattenPaths oracleQ cornerCmds (1/100)
                  (1/4)).paths.getD 0 default).count) default).len
            ((flattenPaths oracleQ cornerCmds (1/100) (1/4)).points.getD
              (((flattenPaths oracleQ cornerCmds (1/100) (1/4)).paths.getD 0 default).first + 1)
              default).len / 1) (101/100)
        * max (min ((flattenPaths oracleQ cornerCmds (1/100) (1/4)).points.getD
              (((flattenPaths oracleQ cornerCmds (1/100) (1/4)).paths.getD 0 default).first +
                (1 + ((flattenPaths oracleQ cornerCmds (1/100) (1/4)).paths.getD 0
                  default).count - 1) % ((flattenPaths oracleQ cornerCmds (1/100)
                  (1/4)).paths.getD 0 default).count) default).len
            ((flattenPaths oracleQ cornerCmds (1/100) (1/4)).points.getD
              (((flattenPaths oracleQ cornerCmds (1/100) (1/4)).paths.getD 0 default).first + 1)
              default).len / 1) (101/100)
      < 1 :=
  claim_C2_inner_bevel_min_len (flattenPaths oracleQ cornerCmds (1/100) (1/4)) 1 .Miter 10 0 1
    (by rw [eval_corner_flatten]; decide)
    (by norm_num)
    (by rw [eval_corner_flatten]; decide)
    (by rw [eval_corner_flatten]; decide)

theorem prevList_slice_getD (pts : List VPoint) (f c k : ℕ) (hk : k < c)
    (hlen : ((pts.drop f).take c).length = c) :
    (prevList ((pts.drop f).take c)).getD k default
      = pts.getD (f + (k + c - 1) % c) default := by
  match k, hk with
  | 0, hk =>
      have hne : ((pts.drop f).take c) ≠ [] :=
        List.ne_nil_of_length_pos (by rw [hlen]; omega)
      rw [prevList_getD_zero _ hne, hlen]
      have hm : (0 + c - 1) % c = c - 1 := by
        have h0 : 0 + c - 1 = c - 1 := by omega
        rw [h0]
        exact Nat.mod_eq_of_lt (by omega)
      rw [hm, take_drop_getD _ _ _ _ (by omega)]
  | k' + 1, hk =>
      rw [prevList_getD_succ _ k' (by rw [hlen]; omega)]
      have hm : (k' + 1 + c - 1) % c = k' := by
        have h1 : k' + 1 + c - 1 = k' + c := by omega
        rw [h1, Nat.add_mod_right]
        exact Nat.mod_eq_of_lt (by omega)
      rw [hm, take_drop_getD _ _ _ _ (by omega)]

theorem joinSliceG_convex (iw : ℚ) (lj : LineJoin) (ml : ℚ) (slice : List VPoint) (p : PathRec)
    (hlen : slice.length = p.count) :
    ((joinSliceG iw lj ml slice p).2.convex = true)
      ↔ ∀ k, k < p.count →
          0 < crossV ((prevList slice).getD k default) (slice.getD k default) := by
  show (decide ((((prevList slice).zip slice).map
      (fun pr => joinPoint iw lj ml pr.1 pr.2)).countP (fun q => q.flags.left) = p.count)
      = true) ↔ _
  rw [decide_eq_true_eq, List.countP_map]
  have hfun : ((fun q : VPoint => q.flags.left) ∘ (fun pr : VPoint × VPoint =>
      joinPoint iw lj ml pr.1 pr.2)) = fun pr => decide (0 < crossV pr.1 pr.2) := by
    funext pr
    exact joinPoint_left iw lj ml pr.1 pr.2
  rw [hfun]
  have hzl : ((prevList slice).zip slice).length = p.count := by
    simp [prevList_length, hlen]
  constructor
  · intro hcount k hk
    rw [← hzl] at hcount
    have hall := List.countP_eq_length.mp hcount
    have hkz : k < ((prevList slice).zip slice).length := by omega
    have hmem := hall _ (List.getElem_mem hkz)
    rw [List.getElem_zip] at hmem
    rw [decide_eq_true_eq] at hmem
    have h1 : k < (prevList slice).length := by rw [prevList_length]; omega
    have h2 : k < slice.length := by omega
    rw [List.getD_eq_getElem _ _ h1, List.getD_eq_getElem _ _ h2]
    exact hmem
  · intro hidx
    rw [← hzl]
    apply List.countP_eq_length.mpr
    intro pr hpr
    obtain ⟨k, hkz, rfl⟩ := List.mem_iff_getElem.mp hpr
    rw [List.getElem_zip, decide_eq_true_eq]
    have hkc : k < p.count := by omega
    have h1 : k < (prevList slice).length := by rw [prevList_length]; omega
    have h2 : k < slice.length := by omega
    have := hidx k hkc
    rw [List.getD_eq_getElem _ _ h1, List.getD_eq_getElem _ _ h2] at this
    exact this

/-- C8 (amended): after calculate_joins, a subpath's convex flag is set if
and only if ALL of its turns are left turns (positive cross product of the
incoming and outgoing directions) — nleft == count in the source — not when
all turns merely share a common handedness: an all-right-turn subpath is
not flagged convex. -/
theorem claim_C8_convex_iff_all_left (st : CacheState) (w : ℚ) (lj : LineJoin) (ml : ℚ)
    (j : ℕ) (hch : pathsChainedB st.paths 0 st.points.length = true)
    (hj : j < st.paths.length) :
    (((calculateJoins st w lj ml).paths.getD j default).convex = true)
      ↔ ∀ k, k < (st.paths.getD j default).count →
          0 < crossV
            (st.points.getD ((st.paths.getD j default).first +
              (k + (st.paths.getD j default).count - 1) % (st.paths.getD j default).count)
              default)
            (st.points.getD ((st.paths.getD j default).first + k) default) := by
  have hfc := chained_fc_le st.paths 0 st.points.length hch j hj
  have hslen : (((st.points.drop (st.paths.getD j default).first).take
      (st.paths.getD j default).count)).length = (st.paths.getD j default).count := by
    simp only [List.length_take, List.length_drop]
    omega
  have hrec := (pathFold_get _ (joinSlice_body (if 0 < w then 1/w else 0) lj ml)
    st.paths st.points 0 hch j hj).1
  have hpaths : (calculateJoins st w lj ml).paths
      = (pathFold (joinSliceG (if 0 < w then 1/w else 0) lj ml) st.points st.paths).2 := rfl
  rw [hpaths, hrec, joinSliceG_convex _ _ _ _ _ hslen]
  constructor
  · intro h k hk
    have := h k hk
    rw [prevList_slice_getD _ _ _ _ hk hslen, take_drop_getD _ _ _ _ hk] at this
    exact this
  · intro h k hk
    rw [prevList_slice_getD _ _ _ _ hk hslen, take_drop_getD _ _ _ _ hk]
    exact h k hk

/-- C8 counterexample: after flatten, the Hole square is stored clockwise:
every one of its four turns is a right turn (negative cross product, all
the same handedness), yet calculate_joins leaves its convex flag false, so
the claimed equivalence with shared handedness fails at this input. -/
theorem claim_C8_counterexample_right_turns :
    ¬((((calculateJoins (flattenPaths oracleQ holeSquareCmds (1/100) (1/4)) 1 .Miter
          10).paths.getD 0 default).convex = true)
        ↔ ((∀ k, k < 4 →
              0 < crossV
                ((flattenPaths oracleQ holeSquareCmds (1/100) (1/4)).points.getD
                  ((k + 4 - 1) % 4) default)
                ((flattenPaths oracleQ holeSquareCmds (1/100) (1/4)).points.getD k default))
            ∨ (∀ k, k < 4 →
              crossV
                ((flattenPaths oracleQ holeSquareCmds (1/100) (1/4)).points.getD
                  ((k + 4 - 1) % 4) default)
                ((flattenPaths oracleQ holeSquareCmds (1/100) (1/4)).points.getD k default)
              < 0))) := by
  rw [eval_hole_flatten]
  intro hiff
  have hB : ∀ k, k < 4 →
      crossV (([⟨⟨10, 0⟩, ⟨0, 1⟩, 10, ⟨0, 0⟩, cornerFlag⟩,
          ⟨⟨10, 10⟩, ⟨-1, 0⟩, 10, ⟨0, 0⟩, cornerFlag⟩,
          ⟨⟨0, 10⟩, ⟨0, -1⟩, 10, ⟨0, 0⟩, cornerFlag⟩,
          ⟨⟨0, 0⟩, ⟨1, 0⟩, 10, ⟨0, 0⟩, cornerFlag⟩] : List VPoint).getD ((k + 4 - 1) % 4)
          default)
        (([⟨⟨10, 0⟩, ⟨0, 1⟩, 10, ⟨0, 0⟩, cornerFlag⟩,
          ⟨⟨10, 10⟩, ⟨-1, 0⟩, 10, ⟨0, 0⟩, cornerFlag⟩,
          ⟨⟨0, 10⟩, ⟨0, -1⟩, 10, ⟨0, 0⟩, cornerFlag⟩,
          ⟨⟨0, 0⟩, ⟨1, 0⟩, 10, ⟨0, 0⟩, cornerFlag⟩] : List VPoint).getD k default) < 0 := by
    intro k hk
    interval_cases k <;> norm_num [crossV, cornerFlag]
  have hconv := hiff.mpr (Or.inr hB)
  rw [show (((calculateJoins ⟨[⟨⟨10, 0⟩, ⟨0, 1⟩, 10, ⟨0, 0⟩, cornerFlag⟩,
      ⟨⟨10, 10⟩, ⟨-1, 0⟩, 10, ⟨0, 0⟩, cornerFlag⟩,
      ⟨⟨0, 10⟩, ⟨0, -1⟩, 10, ⟨0, 0⟩, cornerFlag⟩,
      ⟨⟨0, 0⟩, ⟨1, 0⟩, 10, ⟨0, 0⟩, cornerFlag⟩],
      [⟨0, 4, true, 0, .Hole, [], [], false⟩],
      ⟨⟨0, 0⟩, ⟨10, 10⟩⟩⟩ 1 .Miter 10).paths.getD 0 default).convex) = false by
    norm_num +decide [calculateJoins, pathFold, joinSliceG, joinPoint, prevList, crossV,
      cornerFlag]] at hconv
  exact absurd hconv (by simp)

/-- Witness for the amended C8 at the flattened solid square (all four
turns are left turns there and the convex flag is set). -/
theorem claim_C8_convex_iff_all_left_witness :
    (((calculateJoins (flattenPaths oracleQ rectSquareCmds (1/100) (1/4)) 1 .Miter
        10).paths.getD 0 default).convex = true)
      ↔ ∀ k, k < ((flattenPaths oracleQ rectSquareCmds (1/100) (1/4)).paths.getD 0
          default).count →
          0 < crossV
            ((flattenPaths oracleQ rectSquareCmds (1/100) (1/4)).points.getD
              (((flattenPaths oracleQ rectSquareCmds (1/100) (1/4)).paths.getD 0 default).first +
                (k + ((flattenPaths oracleQ rectSquareCmds (1/100) (1/4)).paths.getD 0
                  default).count - 1) % ((flattenPaths oracleQ rectSquareCmds (1/100)
                  (1/4)).paths.getD 0 default).count) default)
            ((flattenPaths oracleQ rectSquareCmds (1/100) (1/4)).points.getD
              (((flattenPaths oracleQ rectSquareCmds (1/100) (1/4)).paths.getD 0 default).first
                + k) default) :=
  claim_C8_convex_iff_all_left (flattenPaths oracleQ rectSquareCmds (1/100) (1/4)) 1 .Miter 10 0
    (by rw [eval_rect_flatten]; decide)
    (by rw [eval_rect_flatten]; decide)

theorem take_mid_drop (pts : List VPoint) (f K : ℕ) :
    pts = pts.take f ++ ((pts.drop f).take K ++ pts.drop (f + K)) := by
  have h1 : (pts.drop f).drop K = pts.drop (f + K) := by
    rw [List.drop_drop]
  rw [← h1, List.take_append_drop, List.take_append_drop]

theorem splice_map_xy (pts ns : List VPoint) (f : ℕ)
    (h : ns.map VPoint.xy = ((pts.drop f).take ns.length).map VPoint.xy) :
    (pts.take f ++ ns ++ pts.drop (f + ns.length)).map VPoint.xy = pts.map VPoint.xy := by
  conv_rhs => rw [take_mid_drop pts f ns.length]
  simp only [List.map_append, List.append_assoc, h]

theorem joinSlice_map_xy (iw : ℚ) (lj : LineJoin) (ml : ℚ) (slice : List VPoint) (p : PathRec) :
    ((joinSliceG iw lj ml slice p).1).map VPoint.xy = slice.map VPoint.xy := by
  show (((prevList slice).zip slice).map
      (fun pr => joinPoint iw lj ml pr.1 pr.2)).map VPoint.xy = slice.map VPoint.xy
  rw [List.map_map]
  have h1 : (VPoint.xy ∘ fun pr : VPoint × VPoint => joinPoint iw lj ml pr.1 pr.2)
      = (VPoint.xy ∘ Prod.snd) := funext fun pr => rfl
  rw [h1, ← List.map_map, List.map_snd_zip _ _ (le_of_eq (prevList_length slice).symm)]

theorem joinSlice_len (iw : ℚ) (lj : LineJoin) (ml : ℚ) (slice : List VPoint) (p : PathRec) :
    ((joinSliceG iw lj ml slice p).1).length = slice.length := by
  have h := congrArg List.length (joinSlice_map_xy iw lj ml slice p)
  simpa using h

theorem take_take_len (l : List VPoint) (c : ℕ) :
    l.take (l.take c).length = l.take c := by
  rw [List.take_eq_take]
  simp only [List.length_take]
  omega

theorem pathFold_map_xy (iw : ℚ) (lj : LineJoin) (ml : ℚ) :
    ∀ (paths : List PathRec) (pts : List VPoint),
      ((pathFold (joinSliceG iw lj ml) pts paths).1).map VPoint.xy = pts.map VPoint.xy := by
  intro paths
  induction paths with
  | nil => intro pts; rfl
  | cons p rest ih =>
    intro pts
    show ((pathFold (joinSliceG iw lj ml)
        (pts.take p.first ++ (joinSliceG iw lj ml ((pts.drop p.first).take p.count) p).1
          ++ pts.drop (p.first +
              (joinSliceG iw lj ml ((pts.drop p.first).take p.count) p).1.length))
        rest).1).map VPoint.xy = pts.map VPoint.xy
    rw [ih]
    apply splice_map_xy
    rw [joinSlice_map_xy, joinSlice_len, take_take_len]

theorem pathFold_paths_len (g : List VPoint → PathRec → List VPoint × PathRec) :
    ∀ (paths : List PathRec) (pts : List VPoint),
      (pathFold g pts paths).2.length = paths.length := by
  intro paths
  induction paths with
  | nil => intro pts; rfl
  | cons p rest ih =>
    intro pts
    simp only [pathFold, List.length_cons, ih]

theorem pathFold_fields (iw : ℚ) (lj : LineJoin) (ml : ℚ) :
    ∀ (paths : List PathRec) (pts : List VPoint) (j : ℕ),
      ((pathFold (joinSliceG iw lj ml) pts paths).2.getD j default).first
          = (paths.getD j default).first
      ∧ ((pathFold (joinSliceG iw lj ml) pts paths).2.getD j default).count
          = (paths.getD j default).count
      ∧ ((pathFold (joinSliceG iw lj ml) pts paths).2.getD j default).closed
          = (paths.getD j default).closed
      ∧ ((pathFold (joinSliceG iw lj ml) pts paths).2.getD j default).solidity
          = (paths.getD j default).solidity := by
  intro paths
  induction paths with
  | nil => intro pts j; exact ⟨rfl, rfl, rfl, rfl⟩
  | cons p rest ih =>
    intro pts j
    cases j with
    | zero => exact ⟨rfl, rfl, rfl, rfl⟩
    | succ k => exact ih _ k

theorem calcJoins_paths_len (st : CacheState) (w : ℚ) (lj : LineJoin) (ml : ℚ) :
    (calculateJoins st w lj ml).paths.length = st.paths.length :=
  pathFold_paths_len _ st.paths st.points

theorem calcJoins_fields (st : CacheState) (w : ℚ) (lj : LineJoin) (ml : ℚ) (j : ℕ) :
    ((calculateJoins st w lj ml).paths.getD j default).first = (st.paths.getD j default).first
    ∧ ((calculateJoins st w lj ml).paths.getD j default).count = (st.paths.getD j default).count
    ∧ ((calculateJoins st w lj ml).paths.getD j default).closed = (st.paths.getD j default).closed
    ∧ ((calculateJoins st w lj ml).paths.getD j default).solidity
        = (st.paths.getD j default).solidity :=
  pathFold_fields (if 0 < w then 1 / w else 0) lj ml st.paths st.points j

theorem calcJoins_map_xy (st : CacheState) (w : ℚ) (lj : LineJoin) (ml : ℚ) :
    (calculateJoins st w lj ml).points.map VPoint.xy = st.points.map VPoint.xy :=
  pathFold_map_xy (if 0 < w then 1 / w else 0) lj ml st.paths st.points

theorem getD_map_xy (l : List VPoint) (i : ℕ) :
    (l.map VPoint.xy).getD i (default : VPoint).xy = (l.getD i default).xy := by
  induction l generalizing i with
  | nil => rfl
  | cons a t ih =>
    cases i with
    | zero => rfl
    | succ k => simpa using ih k

theorem map_xy_getD (l1 l2 : List VPoint) (h : l1.map VPoint.xy = l2.map VPoint.xy) (i : ℕ) :
    (l1.getD i default).xy = (l2.getD i default).xy := by
  have h1 := congrArg (fun l => List.getD l i (default : VPoint).xy) h
  simpa only [getD_map_xy] using h1

theorem getD_map_path (fn : PathRec → PathRec) (l : List PathRec) (j : ℕ) (hj : j < l.length) :
    (l.map fn).getD j default = fn (l.getD j default) := by
  simp only [List.getD_eq_getElem?_getD, List.getElem?_map, List.getElem?_eq_getElem hj,
    Option.map_some', Option.getD_some]

theorem fillExpandPath_off (pts : List VPoint) (woff w fringeWidth : ℚ)
    (convexAll : Bool) (p : PathRec) :
    fillExpandPath pts false woff w fringeWidth convexAll p
      = { p with
          fill := (List.range p.count).map (fun i =>
            (⟨(ptAt pts (p.first + i)).xy.x, (ptAt pts (p.first + i)).xy.y, 1/2, 1⟩ : Vertex)),
          stroke := [] } := rfl

/-- C4: with the fringe disabled (half width w = 0) expand_fill gives every
subpath whose slice lies inside the point buffer exactly count fill vertices
that reproduce the subpath's flattened points in order, each at UV
(0.5, 1.0), and an empty stroke ring; in particular rect(0,0,10,10) fills to
the four corners (0,0), (0,10), (10,10), (10,0) in order at UV (0.5, 1.0). -/
theorem claim_C4_fill_no_fringe :
    (∀ (st : CacheState) (lj : LineJoin) (ml fw : ℚ) (j : ℕ),
        j < st.paths.length →
        (st.paths.getD j default).first + (st.paths.getD j default).count
            ≤ st.points.length →
        ((expandFill st 0 lj ml fw).paths.getD j default).fill
            = (((st.points.drop (st.paths.getD j default).first).take
                  (st.paths.getD j default).count).map
                (fun q => (⟨q.xy.x, q.xy.y, 1/2, 1⟩ : Vertex)))
          ∧ ((expandFill st 0 lj ml fw).paths.getD j default).fill.length
              = (st.paths.getD j default).count
          ∧ ((expandFill st 0 lj ml fw).paths.getD j default).stroke = [])
    ∧ ((expandFill (flattenPaths oracleQ rectSquareCmds (1/100) (1/4))
          0 .Miter (12/5) 1).paths.getD 0 default).fill
        = [⟨0, 0, 1/2, 1⟩, ⟨0, 10, 1/2, 1⟩, ⟨10, 10, 1/2, 1⟩, ⟨10, 0, 1/2, 1⟩] := by
  constructor
  · intro st lj ml fw j hj hv
    obtain ⟨hf, hc, -, -⟩ := calcJoins_fields st 0 lj ml j
    have hxy := calcJoins_map_xy st 0 lj ml
    have hj1 : j < (calculateJoins st 0 lj ml).paths.length := by
      rw [calcJoins_paths_len]
      exact hj
    have hmap : (expandFill st 0 lj ml fw).paths
        = (calculateJoins st 0 lj ml).paths.map
            (fillExpandPath (calculateJoins st 0 lj ml).points (decide ((0:ℚ) < 0))
              ((1/2) * fw) 0 fw
              (decide ((calculateJoins st 0 lj ml).paths.length = 1)
                && ((calculateJoins st 0 lj ml).paths.getD 0 default).convex)) := rfl
    have hfr : (decide ((0:ℚ) < 0)) = false := by norm_num
    rw [hmap, hfr, getD_map_path _ _ j hj1, fillExpandPath_off]
    have hA : (List.range ((calculateJoins st 0 lj ml).paths.getD j default).count).map
          (fun i => (⟨(ptAt (calculateJoins st 0 lj ml).points
                (((calculateJoins st 0 lj ml).paths.getD j default).first + i)).xy.x,
              (ptAt (calculateJoins st 0 lj ml).points
                (((calculateJoins st 0 lj ml).paths.getD j default).first + i)).xy.y,
              1/2, 1⟩ : Vertex))
        = (((st.points.drop (st.paths.getD j default).first).take
              (st.paths.getD j default).count).map
            (fun q => (⟨q.xy.x, q.xy.y, 1/2, 1⟩ : Vertex))) := by
      rw [hc, hf]
      apply List.ext_getElem
      · simp only [List.length_map, List.length_range, List.length_take, List.length_drop]
        omega
      · intro i h1 h2
        have hcnt : i < (st.paths.getD j default).count := by
          simpa using h1
        have hidx : (st.paths.getD j default).first + i < st.points.length := by omega
        simp only [List.getElem_map, List.getElem_range, List.getElem_take, List.getElem_drop,
          ptAt]
        have hxyi := map_xy_getD _ _ hxy ((st.paths.getD j default).first + i)
        rw [List.getD_eq_getElem st.points default hidx] at hxyi
        rw [hxyi]
    exact ⟨hA, by rw [hA]; simp only [List.length_map, List.length_take, List.length_drop]; omega,
      rfl⟩
  · rw [eval_rect_flatten]
    norm_num +decide [expandFill, calculateJoins, pathFold, joinSliceG, joinPoint, prevList,
      crossV, cornerFlag, fillExpandPath, ptAt]
    rfl

/-- Witness for the general half of C4 at the flattened solid square with
fringe width 1 and miter limit 2.4. -/
theorem claim_C4_fill_no_fringe_witness :
    ((expandFill (flattenPaths oracleQ rectSquareCmds (1/100) (1/4)) 0 .Miter (12/5)
        1).paths.getD 0 default).fill
      = ((((flattenPaths oracleQ rectSquareCmds (1/100) (1/4)).points.drop
            (((flattenPaths oracleQ rectSquareCmds (1/100) (1/4)).paths.getD 0 default).first)).take
            (((flattenPaths oracleQ rectSquareCmds (1/100) (1/4)).paths.getD 0 default).count)).map
          (fun q => (⟨q.xy.x, q.xy.y, 1/2, 1⟩ : Vertex))) :=
  (claim_C4_fill_no_fringe.1 (flattenPaths oracleQ rectSquareCmds (1/100) (1/4)) .Miter (12/5) 1 0
    (by rw [eval_rect_flatten]; decide) (by rw [eval_rect_flatten]; decide)).1

theorem strokeExpandPath_closed_len (o : FOracle) (pts : List VPoint) (w aa u0 u1 : ℚ)
    (cap : LineCap) (lj : LineJoin) (ncap : ℕ) (p : PathRec) (h : p.closed = true) :
    (strokeExpandPath o pts w aa u0 u1 cap lj ncap p).stroke.length
      = (emitPairs (strokeJoinEmit o lj w u0 u1 ncap aa)
          ((prevList ((pts.drop p.first).take p.count)).zip
            ((pts.drop p.first).take p.count))).length + 2 := by
  simp [strokeExpandPath, h]

theorem emitPairs_len_two (f : VPoint × VPoint → List Vertex) :
    ∀ l : List (VPoint × VPoint), (∀ pr ∈ l, (f pr).length = 2) →
      (emitPairs f l).length = 2 * l.length := by
  intro l
  induction l with
  | nil => intro _; rfl
  | cons pr rest ih =>
    intro h
    have h1 := h pr (List.mem_cons_self pr rest)
    have h2 := ih (fun q hq => h q (List.mem_cons_of_mem pr hq))
    simp only [emitPairs, List.length_append, h1, h2, List.length_cons]
    ring

theorem strokeJoinEmit_len (o : FOracle) (lj : LineJoin) (w u0 u1 : ℚ) (ncap : ℕ) (aa : ℚ)
    (pr : VPoint × VPoint) (hb : pr.2.flags.bevel = false)
    (hi : pr.2.flags.innerBevel = false) :
    (strokeJoinEmit o lj w u0 u1 ncap aa pr).length = 2 := by
  simp [strokeJoinEmit, hb, hi]

/-- C5: a closed subpath none of whose joined points carries a Bevel or
InnerBevel flag gets exactly 2*(count+1) stroke vertices from expand_stroke
with Miter join: the plain offset pair per point plus the two wrap-around
vertices, and no cap vertices. -/
theorem claim_C5_closed_no_bevel_stroke_count (o : FOracle) (st : CacheState)
    (w0 fringe : ℚ) (cap : LineCap) (ml tessTol : ℚ) (j : ℕ)
    (hj : j < st.paths.length)
    (hclosed : (st.paths.getD j default).closed = true)
    (hv : (st.paths.getD j default).first + (st.paths.getD j default).count
        ≤ st.points.length)
    (hbev : ∀ q ∈ (((calculateJoins st (w0 + fringe * (1/2)) .Miter ml).points.drop
          (st.paths.getD j default).first).take (st.paths.getD j default).count),
        q.flags.bevel = false ∧ q.flags.innerBevel = false) :
    ((expandStroke o st w0 fringe cap .Miter ml tessTol).paths.getD j default).stroke.length
      = 2 * ((st.paths.getD j default).count + 1) := by
  obtain ⟨hf, hc, hcl, -⟩ := calcJoins_fields st (w0 + fringe * (1/2)) .Miter ml j
  have hptslen : (calculateJoins st (w0 + fringe * (1/2)) .Miter ml).points.length
      = st.points.length := by
    have h := congrArg List.length (calcJoins_map_xy st (w0 + fringe * (1/2)) .Miter ml)
    simpa using h
  have hj1 : j < (calculateJoins st (w0 + fringe * (1/2)) .Miter ml).paths.length := by
    rw [calcJoins_paths_len]
    exact hj
  have hmap : (expandStroke o st w0 fringe cap .Miter ml tessTol).paths
      = (calculateJoins st (w0 + fringe * (1/2)) .Miter ml).paths.map
          (strokeExpandPath o (calculateJoins st (w0 + fringe * (1/2)) .Miter ml).points
            (w0 + fringe * (1/2)) fringe (if fringe = 0 then (1/2 : ℚ) else 0)
            (if fringe = 0 then (1/2 : ℚ) else 1) cap .Miter
            (curveDivs o w0 o.pi tessTol)) := rfl
  rw [hmap, getD_map_path _ _ j hj1,
    strokeExpandPath_closed_len o (calculateJoins st (w0 + fringe * (1/2)) .Miter ml).points
      (w0 + fringe * (1/2)) fringe (if fringe = 0 then (1/2 : ℚ) else 0)
      (if fringe = 0 then (1/2 : ℚ) else 1) cap .Miter (curveDivs o w0 o.pi tessTol)
      ((calculateJoins st (w0 + fringe * (1/2)) .Miter ml).paths.getD j default)
      (by rw [hcl]; exact hclosed), hf, hc]
  have hmem : ∀ pr ∈ ((prevList (((calculateJoins st (w0 + fringe * (1/2)) .Miter
        ml).points.drop (st.paths.getD j default).first).take
        (st.paths.getD j default).count)).zip
        (((calculateJoins st (w0 + fringe * (1/2)) .Miter ml).points.drop
          (st.paths.getD j default).first).take (st.paths.getD j default).count)),
      (strokeJoinEmit o .Miter (w0 + fringe * (1/2)) (if fringe = 0 then (1/2 : ℚ) else 0)
        (if fringe = 0 then (1/2 : ℚ) else 1) (curveDivs o w0 o.pi tessTol) fringe pr).length
        = 2 := by
    rintro ⟨a, b⟩ hpr
    have h2 := (List.of_mem_zip hpr).2
    obtain ⟨hb, hi⟩ := hbev b h2
    exact strokeJoinEmit_len _ _ _ _ _ _ _ _ hb hi
  rw [emitPairs_len_two _ _ hmem, List.length_zip, prevList_length]
  simp only [List.length_take, List.length_drop, hptslen]
  omega

/-- Witness for C5 at the flattened solid square stroked with width 2
(half width 1), no fringe, Butt caps, Miter join: 2*(4+1) = 10 stroke
vertices. -/
theorem claim_C5_closed_no_bevel_stroke_count_witness :
    ((expandStroke oracleQ (flattenPaths oracleQ rectSquareCmds (1/100) (1/4)) 1 0 .Butt
        .Miter 10 (1/4)).paths.getD 0 default).stroke.length
      = 2 * (((flattenPaths oracleQ rectSquareCmds (1/100) (1/4)).paths.getD 0
          default).count + 1) :=
  claim_C5_closed_no_bevel_stroke_count oracleQ
    (flattenPaths oracleQ rectSquareCmds (1/100) (1/4)) 1 0 .Butt 10 (1/4) 0
    (by rw [eval_rect_flatten]; decide)
    (by rw [eval_rect_flatten]; decide)
    (by rw [eval_rect_flatten]; decide)
    (by
      rw [eval_rect_flatten]
      norm_num +decide [calculateJoins, pathFold, joinSliceG, joinPoint, prevList, crossV,
        cornerFlag, List.forall_mem_cons])

theorem iterVerts_len (f : ℕ → List Vertex) (k : ℕ) (hf : ∀ i, (f i).length = k) :
    ∀ n, (iterVerts f n).length = k * n := by
  intro n
  induction n with
  | zero => rfl
  | succ m ih =>
    simp only [iterVerts, List.length_append, ih, hf]
    ring

theorem buttCapStart_len (p : VPoint) (dx dy w d aa u0 u1 : ℚ) :
    (buttCapStart p dx dy w d aa u0 u1).length = 4 := rfl

theorem buttCapEnd_len (p : VPoint) (dx dy w d aa u0 u1 : ℚ) :
    (buttCapEnd p dx dy w d aa u0 u1).length = 4 := rfl

theorem roundCapStart_len (o : FOracle) (p : VPoint) (dx dy w : ℚ) (ncap : ℕ)
    (aa u0 u1 : ℚ) :
    (roundCapStart o p dx dy w ncap aa u0 u1).length = 2 * ncap + 2 := by
  simp only [roundCapStart, List.length_append]
  rw [iterVerts_len _ 2 ?hf ncap]
  case hf => intro i; rfl
  simp only [List.length_cons, List.length_nil]

theorem roundCapEnd_len (o : FOracle) (p : VPoint) (dx dy w : ℚ) (ncap : ℕ)
    (aa u0 u1 : ℚ) :
    (roundCapEnd o p dx dy w ncap aa u0 u1).length = 2 * ncap + 2 := by
  simp only [roundCapEnd, List.length_append]
  rw [iterVerts_len _ 2 ?hf ncap]
  case hf => intro i; rfl
  simp only [List.length_cons, List.length_nil]
  omega

/-- C1: cap vertex budgets of expand_stroke on the open segment
(0,0)-(10,0) with half width 1, no fringe, tess_tol 1/4 (so ncap = 3).
Butt and Square start caps and the Butt end cap are butt-cap geometry
(4 vertices) and the Round start cap is round-cap geometry (2*ncap+2
vertices), but the end-cap match arms are swapped: a Round end cap emits
butt-cap geometry inset by w - aa (4 vertices) and a Square end cap emits
round-cap geometry (2*ncap+2 vertices), so the totals are 8 for Butt but
12 for Square (not 4+4 = 8) and 12 for Round (not 2*(2*ncap+2) = 16). -/
theorem claim_C1_open_cap_vertices :
    (∀ (p : VPoint) (dx dy w d aa u0 u1 : ℚ),
        (buttCapStart p dx dy w d aa u0 u1).length = 4
        ∧ (buttCapEnd p dx dy w d aa u0 u1).length = 4)
    ∧ (∀ (o : FOracle) (p : VPoint) (dx dy w : ℚ) (ncap : ℕ) (aa u0 u1 : ℚ),
        (roundCapStart o p dx dy w ncap aa u0 u1).length = 2 * ncap + 2
        ∧ (roundCapEnd o p dx dy w ncap aa u0 u1).length = 2 * ncap + 2)
    ∧ ((expandStroke oracleQ (flattenPaths oracleQ segCmds (1/100) (1/4)) 1 0 .Butt .Miter
          10 (1/4)).paths.getD 0 default).stroke
        = buttCapStart ⟨⟨0, 0⟩, ⟨1, 0⟩, 10, ⟨0, 0⟩, ⟨true, false, true, true⟩⟩
            1 0 1 0 0 (1/2) (1/2)
          ++ buttCapEnd ⟨⟨10, 0⟩, ⟨-1, 0⟩, 10, ⟨0, 0⟩, ⟨true, false, true, true⟩⟩
            1 0 1 0 0 (1/2) (1/2)
    ∧ ((expandStroke oracleQ (flattenPaths oracleQ segCmds (1/100) (1/4)) 1 0 .Square
          .Miter 10 (1/4)).paths.getD 0 default).stroke
        = buttCapStart ⟨⟨0, 0⟩, ⟨1, 0⟩, 10, ⟨0, 0⟩, ⟨true, false, true, true⟩⟩
            1 0 1 1 0 (1/2) (1/2)
          ++ roundCapEnd oracleQ ⟨⟨10, 0⟩, ⟨-1, 0⟩, 10, ⟨0, 0⟩, ⟨true, false, true, true⟩⟩
            1 0 1 3 0 (1/2) (1/2)
    ∧ ((expandStroke oracleQ (flattenPaths oracleQ segCmds (1/100) (1/4)) 1 0 .Round
          .Miter 10 (1/4)).paths.getD 0 default).stroke
        = roundCapStart oracleQ ⟨⟨0, 0⟩, ⟨1, 0⟩, 10, ⟨0, 0⟩, ⟨true, false, true, true⟩⟩
            1 0 1 3 0 (1/2) (1/2)
          ++ buttCapEnd ⟨⟨10, 0⟩, ⟨-1, 0⟩, 10, ⟨0, 0⟩, ⟨true, false, true, true⟩⟩
            1 0 1 1 0 (1/2) (1/2)
    ∧ ((expandStroke oracleQ (flattenPaths oracleQ segCmds (1/100) (1/4)) 1 0 .Butt .Miter
          10 (1/4)).paths.getD 0 default).stroke.length = 8
    ∧ ((expandStroke oracleQ (flattenPaths oracleQ segCmds (1/100) (1/4)) 1 0 .Square
          .Miter 10 (1/4)).paths.getD 0 default).stroke.length = 12
    ∧ ((expandStroke oracleQ (flattenPaths oracleQ segCmds (1/100) (1/4)) 1 0 .Round
          .Miter 10 (1/4)).paths.getD 0 default).stroke.length = 12 := by
  have hB : ((expandStroke oracleQ (flattenPaths oracleQ segCmds (1/100) (1/4)) 1 0 .Butt
        .Miter 10 (1/4)).paths.getD 0 default).stroke
      = buttCapStart ⟨⟨0, 0⟩, ⟨1, 0⟩, 10, ⟨0, 0⟩, ⟨true, false, true, true⟩⟩
          1 0 1 0 0 (1/2) (1/2)
        ++ buttCapEnd ⟨⟨10, 0⟩, ⟨-1, 0⟩, 10, ⟨0, 0⟩, ⟨true, false, true, true⟩⟩
          1 0 1 0 0 (1/2) (1/2) := by
    rw [eval_seg_flatten]
    norm_num +decide [expandStroke, calculateJoins, pathFold, joinSliceG, joinPoint, prevList,
      crossV, cornerFlag, strokeExpandPath, emitPairs, normDir, normalizeQ, oracleQ, curveDivs]
  have hS : ((expandStroke oracleQ (flattenPaths oracleQ segCmds (1/100) (1/4)) 1 0 .Square
        .Miter 10 (1/4)).paths.getD 0 default).stroke
      = buttCapStart ⟨⟨0, 0⟩, ⟨1, 0⟩, 10, ⟨0, 0⟩, ⟨true, false, true, true⟩⟩
          1 0 1 1 0 (1/2) (1/2)
        ++ roundCapEnd oracleQ ⟨⟨10, 0⟩, ⟨-1, 0⟩, 10, ⟨0, 0⟩, ⟨true, false, true, true⟩⟩
          1 0 1 3 0 (1/2) (1/2) := by
    rw [eval_seg_flatten]
    norm_num +decide [expandStroke, calculateJoins, pathFold, joinSliceG, joinPoint, prevList,
      crossV, cornerFlag, strokeExpandPath, emitPairs, normDir, normalizeQ, oracleQ, curveDivs]
    rw [show ⌈(19513:ℚ)/8000⌉ = 3 by rw [Int.ceil_eq_iff] <;> norm_num]
    rfl
  have hR : ((expandStroke oracleQ (flattenPaths oracleQ segCmds (1/100) (1/4)) 1 0 .Round
        .Miter 10 (1/4)).paths.getD 0 default).stroke
      = roundCapStart oracleQ ⟨⟨0, 0⟩, ⟨1, 0⟩, 10, ⟨0, 0⟩, ⟨true, false, true, true⟩⟩
          1 0 1 3 0 (1/2) (1/2)
        ++ buttCapEnd ⟨⟨10, 0⟩, ⟨-1, 0⟩, 10, ⟨0, 0⟩, ⟨true, false, true, true⟩⟩
          1 0 1 1 0 (1/2) (1/2) := by
    rw [eval_seg_flatten]
    norm_num +decide [expandStroke, calculateJoins, pathFold, joinSliceG, joinPoint, prevList,
      crossV, cornerFlag, strokeExpandPath, emitPairs, normDir, normalizeQ, oracleQ, curveDivs]
    rw [show ⌈(19513:ℚ)/8000⌉ = 3 by rw [Int.ceil_eq_iff] <;> norm_num]
    rfl
  refine ⟨fun p dx dy w d aa u0 u1 => ⟨buttCapStart_len p dx dy w d aa u0 u1,
      buttCapEnd_len p dx dy w d aa u0 u1⟩,
    fun o p dx dy w ncap aa u0 u1 => ⟨roundCapStart_len o p dx dy w ncap aa u0 u1,
      roundCapEnd_len o p dx dy w ncap aa u0 u1⟩,
    hB, hS, hR, ?_, ?_, ?_⟩
  · rw [hB]
    simp [List.length_append, buttCapStart_len, buttCapEnd_len]
  · rw [hS]
    simp [List.length_append, buttCapStart_len, roundCapEnd_len]
  · rw [hR]
    simp [List.length_append, roundCapStart_len, buttCapEnd_len]

/-- Exact contiguous layout of path records over the point buffer: each
path begins exactly where the previous ends and the last ends exactly at
the buffer's length.  The command loop of flatten_paths keeps this. -/
def pathsExactB : List PathRec → ℕ → ℕ → Bool
  | [], lo, n => decide (lo = n)
  | p :: rest, lo, n => decide (p.first = lo) && pathsExactB rest (p.first + p.count) n

theorem exact_chained : ∀ (paths : List PathRec) (lo n : ℕ),
    pathsExactB paths lo n = true → pathsChainedB paths lo n = true := by
  intro paths
  induction paths with
  | nil =>
    intro lo n h
    simp only [pathsExactB, decide_eq_true_eq] at h
    simp only [pathsChainedB, decide_eq_true_eq]
    omega
  | cons p rest ih =>
    intro lo n h
    simp only [pathsExactB, Bool.and_eq_true, decide_eq_true_eq] at h
    simp only [pathsChainedB, Bool.and_eq_true, decide_eq_true_eq]
    exact ⟨by omega, ih _ _ h.2⟩

theorem exact_append_path : ∀ (paths : List PathRec) (lo n : ℕ),
    pathsExactB paths lo n = true →
    pathsExactB (paths ++
      [{ first := n, count := 0, closed := false, numBevel := 0, solidity := .Solid,
         fill := [], stroke := [], convex := false }]) lo n = true := by
  intro paths
  induction paths with
  | nil =>
    intro lo n h
    simp only [pathsExactB, decide_eq_true_eq] at h
    simp only [List.nil_append, pathsExactB, Bool.and_eq_true, decide_eq_true_eq]
    omega
  | cons p rest ih =>
    intro lo n h
    simp only [pathsExactB, Bool.and_eq_true, decide_eq_true_eq] at h
    simp only [List.cons_append, pathsExactB, Bool.and_eq_true, decide_eq_true_eq]
    exact ⟨h.1, ih _ _ h.2⟩

theorem exact_bump_last : ∀ (paths : List PathRec) (lo n : ℕ) (p : PathRec),
    paths.getLast? = some p →
    pathsExactB paths lo n = true →
    pathsExactB (paths.dropLast ++ [{ p with count := p.count + 1 }]) lo (n + 1) = true := by
  intro paths
  induction paths with
  | nil => intro lo n p h _; simp at h
  | cons q rest ih =>
    intro lo n p h hx
    simp only [pathsExactB, Bool.and_eq_true, decide_eq_true_eq] at hx
    cases rest with
    | nil =>
      simp only [List.getLast?_singleton, Option.some_inj] at h
      subst h
      simp only [List.dropLast_single, List.nil_append, pathsExactB, Bool.and_eq_true,
        decide_eq_true_eq]
      simp only [pathsExactB, decide_eq_true_eq] at hx
      exact ⟨hx.1, by omega⟩
    | cons r rest2 =>
      have hlast : (r :: rest2).getLast? = some p := by
        rw [← h]
        exact List.getLast?_cons_cons.symm
      have hd : (q :: r :: rest2).dropLast = q :: (r :: rest2).dropLast := rfl
      rw [hd]
      simp only [List.cons_append, pathsExactB, Bool.and_eq_true, decide_eq_true_eq]
      exact ⟨hx.1, ih _ _ p hlast hx.2⟩

theorem exact_set_last : ∀ (paths : List PathRec) (lo n : ℕ) (p q : PathRec),
    paths.getLast? = some p →
    q.first = p.first → q.count = p.count →
    pathsExactB paths lo n = true →
    pathsExactB (paths.dropLast ++ [q]) lo n = true := by
  intro paths
  induction paths with
  | nil => intro lo n p q h _ _ _; simp at h
  | cons a rest ih =>
    intro lo n p q h hqf hqc hx
    simp only [pathsExactB, Bool.and_eq_true, decide_eq_true_eq] at hx
    cases rest with
    | nil =>
      simp only [List.getLast?_singleton, Option.some_inj] at h
      subst h
      simp only [List.dropLast_single, List.nil_append, pathsExactB, Bool.and_eq_true,
        decide_eq_true_eq]
      simp only [pathsExactB, decide_eq_true_eq] at hx
      rw [hqf, hqc]
      exact ⟨hx.1, hx.2⟩
    | cons r rest2 =>
      have hlast : (r :: rest2).getLast? = some p := by
        rw [← h]
        exact List.getLast?_cons_cons.symm
      have hd : (a :: r :: rest2).dropLast = a :: (r :: rest2).dropLast := rfl
      rw [hd]
      simp only [List.cons_append, pathsExactB, Bool.and_eq_true, decide_eq_true_eq]
      exact ⟨hx.1, ih _ _ p q hlast hqf hqc hx.2⟩

/-- The layout invariant of the command loop. -/
def StInv (st : CacheState) : Prop :=
  pathsExactB st.paths 0 st.points.length = true

theorem inv_addPath (st : CacheState) (h : StInv st) : StInv (addPath st) :=
  exact_append_path st.paths 0 st.points.length h

theorem inv_addPoint (st : CacheState) (pt : Pt) (flags : PFlags) (distTol : ℚ)
    (h : StInv st) : StInv (addPoint st pt flags distTol) := by
  unfold StInv addPoint
  split
  · exact h
  · next path hlast =>
    split
    · next lastPt hplast =>
      split
      · next hc =>
        show pathsExactB st.paths 0
            (st.points.dropLast ++ [{ lastPt with flags := lastPt.flags.union flags }]).length
            = true
        have hne : st.points ≠ [] := by
          intro he
          rw [he] at hplast
          simp at hplast
        have hpos : 0 < st.points.length := List.length_pos.mpr hne
        have hlen : (st.points.dropLast
            ++ [{ lastPt with flags := lastPt.flags.union flags }]).length
            = st.points.length := by
          simp only [List.length_append, List.length_dropLast, List.length_cons,
            List.length_nil]
          omega
        rw [hlen]
        exact h
      · next hc =>
        show pathsExactB (st.paths.dropLast ++ [{ path with count := path.count + 1 }]) 0
            (st.points ++ [(⟨pt, ⟨0, 0⟩, 0, ⟨0, 0⟩, flags⟩ : VPoint)]).length = true
        have hlen : (st.points ++ [(⟨pt, ⟨0, 0⟩, 0, ⟨0, 0⟩, flags⟩ : VPoint)]).length
            = st.points.length + 1 := by
          simp
        rw [hlen]
        exact exact_bump_last st.paths 0 st.points.length path hlast h
    · next hplast =>
      show pathsExactB (st.paths.dropLast ++ [{ path with count := path.count + 1 }]) 0
          (st.points ++ [(⟨pt, ⟨0, 0⟩, 0, ⟨0, 0⟩, flags⟩ : VPoint)]).length = true
      have hlen : (st.points ++ [(⟨pt, ⟨0, 0⟩, 0, ⟨0, 0⟩, flags⟩ : VPoint)]).length
          = st.points.length + 1 := by
        simp
      rw [hlen]
      exact exact_bump_last st.paths 0 st.points.length path hlast h

theorem inv_closeLastPath (st : CacheState) (h : StInv st) : StInv (closeLastPath st) := by
  unfold StInv closeLastPath
  split
  · exact h
  · next path hlast =>
    exact exact_set_last st.paths 0 st.points.length path _ hlast rfl rfl h

theorem inv_setSolidity (st : CacheState) (s : Solidity) (h : StInv st) :
    StInv (setSolidity st s) := by
  unfold StInv setSolidity
  split
  · exact h
  · next path hlast =>
    exact exact_set_last st.paths 0 st.points.length path _ hlast rfl rfl h

theorem inv_tessB : ∀ (fuel : ℕ) (st : CacheState) (p1 p2 p3 p4 : Pt) (flags : PFlags)
    (tessTol : ℚ), StInv st → StInv (tessB fuel st p1 p2 p3 p4 flags tessTol) := by
  intro fuel
  induction fuel with
  | zero => intro st _ _ _ _ _ _ h; exact h
  | succ m ih =>
    intro st p1 p2 p3 p4 flags tessTol h
    simp only [tessB]
    split
    · exact inv_addPoint _ _ _ _ h
    · exact ih _ _ _ _ _ _ _ (ih _ _ _ _ _ _ _ h)

theorem inv_flattenCmd (distTol tessTol : ℚ) (st : CacheState) (c : Cmd) (h : StInv st) :
    StInv (flattenCmd distTol tessTol st c) := by
  cases c with
  | moveTo p => exact inv_addPoint _ _ _ _ (inv_addPath _ h)
  | lineTo p => exact inv_addPoint _ _ _ _ h
  | bezierTo c1 c2 p =>
    show StInv (match st.points.getLast? with
      | some lastP => tesselateBezier st lastP.xy c1 c2 p 0 cornerFlag tessTol
      | none => st)
    split
    · exact inv_tessB _ _ _ _ _ _ _ _ h
    · exact h
  | close => exact inv_closeLastPath _ h
  | solidity s => exact inv_setSolidity _ _ h

theorem inv_step1 (distTol tessTol : ℚ) : ∀ (cmds : List Cmd) (st : CacheState),
    StInv st → StInv (flattenStep1 distTol tessTol cmds st) := by
  intro cmds
  induction cmds with
  | nil => intro st h; exact h
  | cons c rest ih =>
    intro st h
    exact ih _ (inv_flattenCmd _ _ _ _ h)

theorem inv_empty : StInv emptyCache := rfl

theorem step1_chained (distTol tessTol : ℚ) (cmds : List Cmd) :
    pathsChainedB (flattenStep1 distTol tessTol cmds emptyCache).paths 0
      (flattenStep1 distTol tessTol cmds emptyCache).points.length = true :=
  exact_chained _ _ _ (inv_step1 distTol tessTol cmds emptyCache inv_empty)

theorem setDirs_map_xy (o : FOracle) (l : List VPoint) :
    (setDirs o l).map VPoint.xy = l.map VPoint.xy := by
  cases l with
  | nil => rfl
  | cons p t =>
    show (((p :: t).zip (t ++ [p])).map (fun pr =>
        let n := normalizeQ o ⟨pr.2.xy.x - pr.1.xy.x, pr.2.xy.y - pr.1.xy.y⟩
        { pr.1 with d := n.1, len := n.2 })).map VPoint.xy
      = (p :: t).map VPoint.xy
    rw [List.map_map]
    have h1 : (VPoint.xy ∘ fun pr : VPoint × VPoint =>
        let n := normalizeQ o ⟨pr.2.xy.x - pr.1.xy.x, pr.2.xy.y - pr.1.xy.y⟩
        ({ pr.1 with d := n.1, len := n.2 } : VPoint))
        = (VPoint.xy ∘ Prod.fst) := funext fun pr => rfl
    rw [h1, ← List.map_map, List.map_fst_zip _ _ (by simp)]

theorem flattenFixSlice_first (o : FOracle) (distTol : ℚ) (slice : List VPoint)
    (p : PathRec) : (flattenFixSlice o distTol slice p).2.first = p.first := rfl

theorem flattenFixSlice_solidity (o : FOracle) (distTol : ℚ) (slice : List VPoint)
    (p : PathRec) : (flattenFixSlice o distTol slice p).2.solidity = p.solidity := rfl

theorem flattenFixSlice_out (o : FOracle) (distTol : ℚ) (slice : List VPoint) (p : PathRec) :
    (flattenFixSlice o distTol slice p).1
      = setDirs o
        (if 2 < (flattenFixSlice o distTol slice p).2.count then
          (let slice1 := slice.take (flattenFixSlice o distTol slice p).2.count
           let area := polyArea (slice1.map VPoint.xy)
           let sliceA := if p.solidity = .Solid ∧ area < 0 then slice1.reverse else slice1
           if p.solidity = .Hole ∧ 0 < area then sliceA.reverse else sliceA)
        else slice.take (flattenFixSlice o distTol slice p).2.count) := rfl

theorem flattenFixSlice_count_le (o : FOracle) (distTol : ℚ) (slice : List VPoint)
    (p : PathRec) : (flattenFixSlice o distTol slice p).2.count ≤ p.count := by
  have h : ∀ b : Bool, (if b = true then p.count - 1 else p.count) ≤ p.count := by
    intro b
    cases b
    · simp
    · simp only [eq_self_iff_true, if_true]
      omega
  exact h _

theorem flattenFix_body (o : FOracle) (distTol : ℚ) :
    SliceBody (flattenFixSlice o distTol) := by
  intro sl p hlen
  refine ⟨?_, flattenFixSlice_count_le o distTol sl p, rfl⟩
  have hle : (flattenFixSlice o distTol sl p).2.count ≤ sl.length := by
    rw [hlen]
    exact flattenFixSlice_count_le o distTol sl p
  rw [flattenFixSlice_out, setDirs_length]
  split
  · simp only []
    split
    · split
      · simp only [List.length_reverse, List.length_take]
        omega
      · simp only [List.length_reverse, List.length_take]
        omega
    · split
      · simp only [List.length_reverse, List.length_take]
        omega
      · simp only [List.length_take]
        omega
  · simp only [List.length_take]
    omega

theorem flattenFixSlice_spec (o : FOracle) (distTol : ℚ) (slice : List VPoint) (p : PathRec)
    (h2 : 2 < (flattenFixSlice o distTol slice p).2.count) :
    (p.solidity = .Solid →
        0 ≤ polyArea (((flattenFixSlice o distTol slice p).1).map VPoint.xy))
    ∧ (p.solidity = .Hole →
        polyArea (((flattenFixSlice o distTol slice p).1).map VPoint.xy) ≤ 0)
    ∧ (p.solidity = .Hole →
        0 < polyArea ((slice.take (flattenFixSlice o distTol slice p).2.count).map VPoint.xy) →
        ((flattenFixSlice o distTol slice p).1).map VPoint.xy
          = ((slice.take (flattenFixSlice o distTol slice p).2.count).map VPoint.xy).reverse
        ∧ polyArea (((flattenFixSlice o distTol slice p).1).map VPoint.xy) < 0) := by
  rw [flattenFixSlice_out o distTol slice p, if_pos h2, setDirs_map_xy]
  simp only []
  set s1 := slice.take (flattenFixSlice o distTol slice p).2.count with hs1
  set A := polyArea (s1.map VPoint.xy) with hA
  rcases hsol : p.solidity with _ | _
  · have h1 : (Solidity.Solid = Solidity.Hole ∧ 0 < A) = False := by simp
    simp only [h1, if_false, eq_self_iff_true, true_and]
    by_cases hA0 : A < 0
    · simp only [if_pos hA0]
      refine ⟨fun _ => ?_, fun hh => by simp at hh, fun hh => by simp at hh⟩
      rw [List.map_reverse, polyArea_reverse, ← hA]
      linarith
    · simp only [if_neg hA0]
      refine ⟨fun _ => ?_, fun hh => by simp at hh, fun hh => by simp at hh⟩
      rw [← hA]
      linarith [not_lt.mp hA0]
  · have h1 : (Solidity.Hole = Solidity.Solid ∧ A < 0) = False := by simp
    simp only [h1, if_false, eq_self_iff_true, true_and]
    by_cases hA0 : 0 < A
    · simp only [if_pos hA0]
      refine ⟨fun hh => by simp at hh, fun _ => ?_, fun _ _ => ⟨?_, ?_⟩⟩
      · rw [List.map_reverse, polyArea_reverse, ← hA]
        linarith
      · rw [List.map_reverse]
      · rw [List.map_reverse, polyArea_reverse, ← hA]
        linarith
    · simp only [if_neg hA0]
      refine ⟨fun hh => by simp at hh, fun _ => ?_, fun _ hpos => absurd hpos hA0⟩
      rw [← hA]
      linarith [not_lt.mp hA0]

/-- C6: after flatten_paths every subpath with more than 2 points satisfies
the winding invariant: a Solid subpath's stored point slice has
non-negative signed polygon area, a Hole subpath's has non-positive area,
and a Hole subpath whose (deduplicated) command-loop points have positive
area is stored as their reversal, with strictly negative area. -/
theorem claim_C6_winding_solidity (o : FOracle) (cmds : List Cmd) (distTol tessTol : ℚ)
    (j : ℕ) (hj : j < (flattenPaths o cmds distTol tessTol).paths.length)
    (hcnt : 2 < ((flattenPaths o cmds distTol tessTol).paths.getD j default).count) :
    (((flattenPaths o cmds distTol tessTol).paths.getD j default).solidity = .Solid →
        0 ≤ polyArea ((((flattenPaths o cmds distTol tessTol).points.drop
            (((flattenPaths o cmds distTol tessTol).paths.getD j default).first)).take
            (((flattenPaths o cmds distTol tessTol).paths.getD j default).count)).map
            VPoint.xy))
    ∧ (((flattenPaths o cmds distTol tessTol).paths.getD j default).solidity = .Hole →
        polyArea ((((flattenPaths o cmds distTol tessTol).points.drop
            (((flattenPaths o cmds distTol tessTol).paths.getD j default).first)).take
            (((flattenPaths o cmds distTol tessTol).paths.getD j default).count)).map
            VPoint.xy) ≤ 0)
    ∧ (((flattenPaths o cmds distTol tessTol).paths.getD j default).solidity = .Hole →
        0 < polyArea ((((((flattenStep1 distTol tessTol cmds emptyCache).points.drop
            (((flattenStep1 distTol tessTol cmds emptyCache).paths.getD j default).first)).take
            (((flattenStep1 distTol tessTol cmds emptyCache).paths.getD j default).count)).take
            (((flattenPaths o cmds distTol tessTol).paths.getD j default).count)).map
            VPoint.xy)) →
        ((((flattenPaths o cmds distTol tessTol).points.drop
            (((flattenPaths o cmds distTol tessTol).paths.getD j default).first)).take
            (((flattenPaths o cmds distTol tessTol).paths.getD j default).count)).map
            VPoint.xy)
          = (((((flattenStep1 distTol tessTol cmds emptyCache).points.drop
              (((flattenStep1 distTol tessTol cmds emptyCache).paths.getD j
                default).first)).take
              (((flattenStep1 distTol tessTol cmds emptyCache).paths.getD j
                default).count)).take
              (((flattenPaths o cmds distTol tessTol).paths.getD j default).count)).map
              VPoint.xy).reverse
        ∧ polyArea ((((flattenPaths o cmds distTol tessTol).points.drop
            (((flattenPaths o cmds distTol tessTol).paths.getD j default).first)).take
            (((flattenPaths o cmds distTol tessTol).paths.getD j default).count)).map
            VPoint.xy) < 0) := by
  have hch := step1_chained distTol tessTol cmds
  have hbody := flattenFix_body o distTol
  have hplen : (flattenPaths o cmds distTol tessTol).paths.length
      = (flattenStep1 distTol tessTol cmds emptyCache).paths.length :=
    pathFold_paths_len (flattenFixSlice o distTol)
      (flattenStep1 distTol tessTol cmds emptyCache).paths
      (flattenStep1 distTol tessTol cmds emptyCache).points
  have hj0 : j < (flattenStep1 distTol tessTol cmds emptyCache).paths.length := by
    rw [← hplen]
    exact hj
  obtain ⟨hrec, hreg⟩ := pathFold_get (flattenFixSlice o distTol) hbody
    (flattenStep1 distTol tessTol cmds emptyCache).paths
    (flattenStep1 distTol tessTol cmds emptyCache).points 0 hch j hj0
  have hfc := chained_fc_le (flattenStep1 distTol tessTol cmds emptyCache).paths 0
    (flattenStep1 distTol tessTol cmds emptyCache).points.length hch j hj0
  have hslen : (((flattenStep1 distTol tessTol cmds emptyCache).points.drop
      (((flattenStep1 distTol tessTol cmds emptyCache).paths.getD j default).first)).take
      (((flattenStep1 distTol tessTol cmds emptyCache).paths.getD j default).count)).length
      = ((flattenStep1 distTol tessTol cmds emptyCache).paths.getD j default).count := by
    simp only [List.length_take, List.length_drop]
    omega
  have hrec' : (flattenPaths o cmds distTol tessTol).paths.getD j default
      = (flattenFixSlice o distTol
          (((flattenStep1 distTol tessTol cmds emptyCache).points.drop
            (((flattenStep1 distTol tessTol cmds emptyCache).paths.getD j default).first)).take
            (((flattenStep1 distTol tessTol cmds emptyCache).paths.getD j default).count))
          ((flattenStep1 distTol tessTol cmds emptyCache).paths.getD j default)).2 := hrec
  rw [hrec', flattenFixSlice_first, flattenFixSlice_solidity]
  have hfl := (hbody _ _ hslen).1
  have hsl : (((flattenPaths o cmds distTol tessTol).points.drop
      (((flattenStep1 distTol tessTol cmds emptyCache).paths.getD j default).first)).take
      ((flattenFixSlice o distTol
        (((flattenStep1 distTol tessTol cmds emptyCache).points.drop
          (((flattenStep1 distTol tessTol cmds emptyCache).paths.getD j default).first)).take
          (((flattenStep1 distTol tessTol cmds emptyCache).paths.getD j default).count))
        ((flattenStep1 distTol tessTol cmds emptyCache).paths.getD j default)).2.count))
      = (flattenFixSlice o distTol
          (((flattenStep1 distTol tessTol cmds emptyCache).points.drop
            (((flattenStep1 distTol tessTol cmds emptyCache).paths.getD j default).first)).take
            (((flattenStep1 distTol tessTol cmds emptyCache).paths.getD j default).count))
          ((flattenStep1 distTol tessTol cmds emptyCache).paths.getD j default)).1 := by
    rw [← hfl]
    exact hreg
  rw [hsl]
  have h2 : 2 < (flattenFixSlice o distTol
      (((flattenStep1 distTol tessTol cmds emptyCache).points.drop
        (((flattenStep1 distTol tessTol cmds emptyCache).paths.getD j default).first)).take
        (((flattenStep1 distTol tessTol cmds emptyCache).paths.getD j default).count))
      ((flattenStep1 distTol tessTol cmds emptyCache).paths.getD j default)).2.count := by
    rw [← hrec']
    exact hcnt
  exact flattenFixSlice_spec o distTol _ _ h2

/-- Witness for C6 at the flattened Hole-solidity square: its stored slice
has non-positive signed area. -/
theorem claim_C6_winding_solidity_witness :
    polyArea ((((flattenPaths oracleQ holeSquareCmds (1/100) (1/4)).points.drop
        (((flattenPaths oracleQ holeSquareCmds (1/100) (1/4)).paths.getD 0 default).first)).take
        (((flattenPaths oracleQ holeSquareCmds (1/100) (1/4)).paths.getD 0
          default).count)).map VPoint.xy) ≤ 0 :=
  (claim_C6_winding_solidity oracleQ holeSquareCmds (1/100) (1/4) 0
    (by rw [eval_hole_flatten]; decide) (by rw [eval_hole_flatten]; decide)).2.1
    (by rw [eval_hole_flatten]; decide)

theorem tessB_flat (fuel : ℕ) (st : CacheState) (p1 p2 p3 p4 : Pt) (flags : PFlags)
    (tessTol : ℚ)
    (h : (|(p2.x - p4.x) * (p4.y - p1.y) - (p2.y - p4.y) * (p4.x - p1.x)|
            + |(p3.x - p4.x) * (p4.y - p1.y) - (p3.y - p4.y) * (p4.x - p1.x)|)
          * (|(p2.x - p4.x) * (p4.y - p1.y) - (p2.y - p4.y) * (p4.x - p1.x)|
            + |(p3.x - p4.x) * (p4.y - p1.y) - (p3.y - p4.y) * (p4.x - p1.x)|)
          < tessTol * ((p4.x - p1.x) * (p4.x - p1.x) + (p4.y - p1.y) * (p4.y - p1.y))) :
    tessB (fuel + 1) st p1 p2 p3 p4 flags tessTol = addPoint st p4 flags tessTol := by
  simp only [tessB]
  rw [if_pos h]

/-- C7 (amended): add_point merges the new point into the current subpath's
last stored point exactly when the current count is positive and the
squared distance is below tol², ORing the flags and appending nothing,
where tol is whatever the caller passes: the command loop passes dist_tol
for MoveTo and LineTo, but tesselate_bezier's terminal emission passes
tess_tol as add_point's dist_tol. -/
theorem claim_C7_add_point_merge :
    (∀ (st : CacheState) (pt : Pt) (flags : PFlags) (tol : ℚ) (path : PathRec)
        (lastPt : VPoint),
        st.paths.getLast? = some path →
        st.points.getLast? = some lastPt →
        ((0 < path.count ∧ ptEqualsB lastPt.xy pt tol = true →
            (addPoint st pt flags tol).points
              = st.points.dropLast ++ [{ lastPt with flags := lastPt.flags.union flags }]
            ∧ (addPoint st pt flags tol).paths = st.paths)
        ∧ (¬(0 < path.count ∧ ptEqualsB lastPt.xy pt tol = true) →
            (addPoint st pt flags tol).points
              = st.points ++ [⟨pt, ⟨0, 0⟩, 0, ⟨0, 0⟩, flags⟩])))
    ∧ (∀ (a b : Pt) (tol : ℚ),
        ptEqualsB a b tol
          = decide ((b.x - a.x) * (b.x - a.x) + (b.y - a.y) * (b.y - a.y) < tol * tol))
    ∧ (∀ (distTol tessTol : ℚ) (st : CacheState) (p : Pt),
        flattenCmd distTol tessTol st (.lineTo p) = addPoint st p cornerFlag distTol
        ∧ flattenCmd distTol tessTol st (.moveTo p)
            = addPoint (addPath st) p cornerFlag distTol)
    ∧ (∀ (fuel : ℕ) (st : CacheState) (p1 p2 p3 p4 : Pt) (flags : PFlags) (tessTol : ℚ),
        (|(p2.x - p4.x) * (p4.y - p1.y) - (p2.y - p4.y) * (p4.x - p1.x)|
            + |(p3.x - p4.x) * (p4.y - p1.y) - (p3.y - p4.y) * (p4.x - p1.x)|)
          * (|(p2.x - p4.x) * (p4.y - p1.y) - (p2.y - p4.y) * (p4.x - p1.x)|
            + |(p3.x - p4.x) * (p4.y - p1.y) - (p3.y - p4.y) * (p4.x - p1.x)|)
          < tessTol * ((p4.x - p1.x) * (p4.x - p1.x) + (p4.y - p1.y) * (p4.y - p1.y)) →
        tessB (fuel + 1) st p1 p2 p3 p4 flags tessTol = addPoint st p4 flags tessTol) := by
  refine ⟨?_, fun a b tol => rfl, fun d t st p => ⟨rfl, rfl⟩, ?_⟩
  · intro st pt flags tol path lastPt hpa hpo
    constructor
    · intro hc
      unfold addPoint
      rw [hpa, hpo]
      simp only []
      rw [if_pos hc]
      exact ⟨rfl, rfl⟩
    · intro hc
      unfold addPoint
      rw [hpa, hpo]
      simp only []
      rw [if_neg hc]
  · intro fuel st p1 p2 p3 p4 flags tessTol h
    exact tessB_flat fuel st p1 p2 p3 p4 flags tessTol h

/-- Counterexample to C7 as stated: the bezier [moveTo (0,0),
bezierTo (1/20,0) (2/25,0) (1/10,0)] flattened with dist_tol = 1/100 and
tess_tol = 1/4 keeps a single stored point — the terminal emission of the
subdivision was merged — although the squared distance from (0,0) to
(1/10,0) is 1/100, which is not below dist_tol² = 1/10000, so under the
claimed dist_tol criterion the point would have been appended. -/
theorem claim_C7_counterexample_bezier_tess_tol :
    (flattenStep1 (1/100) (1/4)
        [.moveTo ⟨0, 0⟩, .bezierTo ⟨1/20, 0⟩ ⟨2/25, 0⟩ ⟨1/10, 0⟩] emptyCache).points.length
      = 1
    ∧ ¬(((1/10 : ℚ) - 0) * ((1/10 : ℚ) - 0) + ((0 : ℚ) - 0) * ((0 : ℚ) - 0)
        < (1/100) * (1/100)) := by
  constructor
  · show (flattenCmd (1/100) (1/4) (flattenCmd (1/100) (1/4) emptyCache (.moveTo ⟨0, 0⟩))
        (.bezierTo ⟨1/20, 0⟩ ⟨2/25, 0⟩ ⟨1/10, 0⟩)).points.length = 1
    have h1 : flattenCmd (1/100) (1/4) emptyCache (.moveTo ⟨0, 0⟩)
        = ⟨[⟨⟨0, 0⟩, ⟨0, 0⟩, 0, ⟨0, 0⟩, cornerFlag⟩],
           [⟨0, 1, false, 0, .Solid, [], [], false⟩], ⟨⟨0, 0⟩, ⟨0, 0⟩⟩⟩ := by
      norm_num +decide [flattenCmd, addPath, addPoint, emptyCache, ptEqualsB, cornerFlag]
    rw [h1]
    have h2 : flattenCmd (1/100) (1/4)
        ⟨[⟨⟨0, 0⟩, ⟨0, 0⟩, 0, ⟨0, 0⟩, cornerFlag⟩],
         [⟨0, 1, false, 0, .Solid, [], [], false⟩], ⟨⟨0, 0⟩, ⟨0, 0⟩⟩⟩
        (.bezierTo ⟨1/20, 0⟩ ⟨2/25, 0⟩ ⟨1/10, 0⟩)
        = tessB 11 ⟨[⟨⟨0, 0⟩, ⟨0, 0⟩, 0, ⟨0, 0⟩, cornerFlag⟩],
            [⟨0, 1, false, 0, .Solid, [], [], false⟩], ⟨⟨0, 0⟩, ⟨0, 0⟩⟩⟩
            ⟨0, 0⟩ ⟨1/20, 0⟩ ⟨2/25, 0⟩ ⟨1/10, 0⟩ cornerFlag (1/4) := rfl
    rw [h2, show (11:ℕ) = 10 + 1 from rfl,
      tessB_flat 10
        ⟨[⟨⟨0, 0⟩, ⟨0, 0⟩, 0, ⟨0, 0⟩, cornerFlag⟩],
         [⟨0, 1, false, 0, .Solid, [], [], false⟩], ⟨⟨0, 0⟩, ⟨0, 0⟩⟩⟩
        ⟨0, 0⟩ ⟨1/20, 0⟩ ⟨2/25, 0⟩ ⟨1/10, 0⟩ cornerFlag (1/4) (by norm_num)]
    norm_num +decide [addPoint, ptEqualsB, cornerFlag]
  · norm_num

/-- Witness for the amended C7: a concrete merge at tol = 1/4 of the point
(1/10, 0) into a one-point subpath at (0, 0). -/
theorem claim_C7_add_point_merge_witness :
    (addPoint ⟨[⟨⟨0, 0⟩, ⟨0, 0⟩, 0, ⟨0, 0⟩, cornerFlag⟩],
        [⟨0, 1, false, 0, .Solid, [], [], false⟩], ⟨⟨0, 0⟩, ⟨0, 0⟩⟩⟩ ⟨1/10, 0⟩ cornerFlag
        (1/4)).points
      = [⟨⟨0, 0⟩, ⟨0, 0⟩, 0, ⟨0, 0⟩, cornerFlag.union cornerFlag⟩]
    ∧ (addPoint ⟨[⟨⟨0, 0⟩, ⟨0, 0⟩, 0, ⟨0, 0⟩, cornerFlag⟩],
        [⟨0, 1, false, 0, .Solid, [], [], false⟩], ⟨⟨0, 0⟩, ⟨0, 0⟩⟩⟩ ⟨1/10, 0⟩ cornerFlag
        (1/4)).paths
      = [⟨0, 1, false, 0, .Solid, [], [], false⟩] :=
  (claim_C7_add_point_merge.1
    ⟨[⟨⟨0, 0⟩, ⟨0, 0⟩, 0, ⟨0, 0⟩, cornerFlag⟩], [⟨0, 1, false, 0, .Solid, [], [], false⟩],
      ⟨⟨0, 0⟩, ⟨0, 0⟩⟩⟩
    ⟨1/10, 0⟩ cornerFlag (1/4)
    ⟨0, 1, false, 0, .Solid, [], [], false⟩
    ⟨⟨0, 0⟩, ⟨0, 0⟩, 0, ⟨0, 0⟩, cornerFlag⟩
    rfl rfl).1 ⟨by norm_num, by norm_num [ptEqualsB]⟩
